import Mathlib

/-!
Verification of the sigma-rust rule-evaluation engine (a Rust implementation
of the Sigma detection-rule format) against its natural-language specification.

The Rust sources are shallowly embedded:
* Rust `String` / `&str` values are modelled as their character sequences
  (`Str := List Char`); `HashMap<String, V>` is modelled as an association
  list (insertion puts the new binding in front, lookup takes the first hit,
  which matches the replace-on-insert behaviour of `HashMap`).
* `i64` / `u64` are modelled as `Int` / `Nat` (no claim exercises overflow)
  and `f64` as `Rat` (no claim depends on float payloads; only the type tag
  of a float value ever matters below).
* A compiled `fancy_regex::Regex` obtained from an arbitrary user pattern
  (the `re` modifier) is modelled as its source string together with its
  matching behaviour as an abstract boolean function.  Regexes synthesised
  by the engine itself from wildcard patterns are modelled structurally
  (`GlobRegex` below) with an executable matching semantics.
* The global mutable `PATTERN_CACHE` becomes an explicit state value that is
  threaded through every function that reads or writes it.
* Fallible constructors return `Except`; error payloads that the Rust code
  renders with `format!("{:?}", v)` are modelled by carrying `v` itself.
-/

namespace SigmaRust

/-- Rust strings are modelled by their character sequences. -/
abbrev Str := List Char

/-- Lowercase folding of a string (`str::to_lowercase`); the embedding uses
per-character lowering. -/
def lowerStr (s : Str) : Str := s.map Char.toLower

/-- Substring test, `str::contains`. -/
def strContains (a b : Str) : Bool := a.tails.any (fun t => b.isPrefixOf t)

/-- Prefix test, `str::starts_with`. -/
def strStarts (a b : Str) : Bool := b.isPrefixOf a

/-- Suffix test, `str::ends_with`. -/
def strEnds (a b : Str) : Bool := b.isSuffixOf a

/-- Lexicographic comparison of strings (Rust `str` ordering). -/
def strCmp : Str → Str → Ordering
  | [], [] => Ordering.eq
  | [], _ :: _ => Ordering.lt
  | _ :: _, [] => Ordering.gt
  | a :: as_, b :: bs =>
    match compare a b with
    | Ordering.eq => strCmp as_ bs
    | o => o

/-- A compiled `fancy_regex::Regex` built from an arbitrary user-supplied
pattern (`re` modifier): source string plus matching behaviour.  The
compilation itself is external-crate code; no claim depends on it. -/
structure ReAbs where
  src : Str
  isMatch : Str → Bool

/-- A parsed `cidr::IpCidr`: source string plus the membership test
`|ip_string| cidr.contains(ip)` with IP-parse failure folded to `false`.
The parsing is external-crate code; no claim depends on it. -/
structure CidrAbs where
  src : Str
  containsIp : Str → Bool

/-- `FieldValue` from src/src/field/value.rs. -/
inductive FieldValue where
  | String (s : Str)
  | Int (i : Int)
  | Float (f : Rat)
  | Unsigned (u : Nat)
  | Boolean (b : Bool)
  | Null
  | Regex (r : ReAbs)
  | Cidr (c : CidrAbs)

/-- The type tag of a `FieldValue` (the Rust enum discriminant). -/
inductive VTag where
  | str | int | float | unsigned | bool | null | regex | cidr
  deriving DecidableEq, Repr

namespace FieldValue

/-- Discriminant of a value. -/
def tag : FieldValue → VTag
  | .String _ => .str
  | .Int _ => .int
  | .Float _ => .float
  | .Unsigned _ => .unsigned
  | .Boolean _ => .bool
  | .Null => .null
  | .Regex _ => .regex
  | .Cidr _ => .cidr

/-- `impl PartialEq for FieldValue` (value.rs lines 148-162): strictly
typed equality, `Regex` compared by source string, every cross-tag pair
(and any pair involving `Cidr`) is unequal. -/
def eq : FieldValue → FieldValue → Bool
  | .String a, .String b => a == b
  | .Int a, .Int b => a == b
  | .Unsigned a, .Unsigned b => a == b
  | .Float a, .Float b => a == b
  | .Boolean a, .Boolean b => a == b
  | .Regex a, .Regex b => a.src == b.src
  | .Null, .Null => true
  | _, _ => false

/-- `impl PartialOrd for FieldValue` (value.rs lines 164-177): ordering is
defined only between identical tags; every other pair returns `none`
(Rust `None`, "undefined"). -/
def pcmp : FieldValue → FieldValue → Option Ordering
  | .String a, .String b => some (strCmp a b)
  | .Int a, .Int b => some (compare a b)
  | .Unsigned a, .Unsigned b => some (compare a b)
  | .Float a, .Float b => some (compare a b)
  | .Boolean a, .Boolean b => some (compare a b)
  | .Null, .Null => some Ordering.eq
  | _, _ => none

/-- Rust `a > b` for a `PartialOrd` type: `partial_cmp == Some(Greater)`.
This (with the three below) is exactly what `Field::compare` evaluates for
the `Gt`/`Gte`/`Lt`/`Lte` match modifiers (field.rs lines 240-243). -/
def gtV (a b : FieldValue) : Bool := pcmp a b == some Ordering.gt

/-- Rust `a >= b`: `partial_cmp` is `Some(Greater)` or `Some(Equal)`. -/
def geV (a b : FieldValue) : Bool :=
  pcmp a b == some Ordering.gt || pcmp a b == some Ordering.eq

/-- Rust `a < b`: `partial_cmp == Some(Less)`. -/
def ltV (a b : FieldValue) : Bool := pcmp a b == some Ordering.lt

/-- Rust `a <= b`: `partial_cmp` is `Some(Less)` or `Some(Equal)`. -/
def leV (a b : FieldValue) : Bool :=
  pcmp a b == some Ordering.lt || pcmp a b == some Ordering.eq

/-- `FieldValue::value_to_string` (value.rs lines 181-192).  Numeric and
rational payloads are rendered with Lean's `toString`; no claim depends on
the exact rendering of numbers. -/
def value_to_string : FieldValue → Str
  | .String s => s
  | .Int i => (toString i).data
  | .Float f => (toString f).data
  | .Unsigned u => (toString u).data
  | .Boolean b => (toString b).data
  | .Regex r => r.src
  | .Cidr c => c.src
  | .Null => String.data "null"

/-- `FieldValue::is_regex_match` (value.rs lines 379-384). -/
def is_regex_match (v : FieldValue) (target : Str) : Bool :=
  match v with
  | .Regex r => r.isMatch target
  | _ => false

/-- `FieldValue::cidr_contains` (value.rs lines 387-397); IP parsing and
network membership live in the abstract `CidrAbs` function (parse failure
is folded to `false` there). -/
def cidr_contains (v : FieldValue) (other : FieldValue) : Bool :=
  match v with
  | .Cidr c => c.containsIp (value_to_string other)
  | _ => false

end FieldValue

/-- C3: for every pair of values with distinct type tags, equality between
them is false and every ordering predicate Gt/Gte/Lt/Lte between them is
false (`PartialEq`/`PartialOrd` of `FieldValue` are defined only between
identical tags, and `Field::compare` maps the undefined ordering to false). -/
theorem c3_cross_tag_false (a b : FieldValue) (h : a.tag ≠ b.tag) :
    FieldValue.eq a b = false ∧ FieldValue.gtV a b = false ∧
    FieldValue.geV a b = false ∧ FieldValue.ltV a b = false ∧
    FieldValue.leV a b = false := by
  cases a <;> cases b <;>
    simp_all [FieldValue.tag, FieldValue.eq, FieldValue.pcmp, FieldValue.gtV,
      FieldValue.geV, FieldValue.ltV, FieldValue.leV]

/-- Witness for C3 at `Int 3` versus `Float 3`. -/
theorem c3_cross_tag_false_witness :
    FieldValue.eq (.Int 3) (.Float 3) = false ∧
    FieldValue.gtV (.Int 3) (.Float 3) = false ∧
    FieldValue.geV (.Int 3) (.Float 3) = false ∧
    FieldValue.ltV (.Int 3) (.Float 3) = false ∧
    FieldValue.leV (.Int 3) (.Float 3) = false :=
  c3_cross_tag_false (.Int 3) (.Float 3) (by decide)

/-! ## Events (src/src/event.rs)

`EventValue` is a scalar, a sequence or a nested map; `Event` wraps the top
map.  `HashMap<String, EventValue>` is modelled as an association list. -/

/-- `EventValue` from event.rs lines 12-17. -/
inductive EventValue where
  | Value (v : FieldValue)
  | Sequence (vs : List EventValue)
  | Map (m : List (Str × EventValue))

/-- Association-list lookup, the model of `HashMap::get`. -/
def mapGet (m : List (Str × EventValue)) (k : Str) : Option EventValue :=
  match m with
  | [] => none
  | (k', v) :: rest => if k' == k then some v else mapGet rest k

/-- `Event` from event.rs lines 74-76. -/
structure Event where
  inner : List (Str × EventValue)

/-- `str::split_once('.')`: splits at the first dot, if any. -/
def splitOnceDot (s : Str) : Option (Str × Str) :=
  match s with
  | [] => none
  | c :: rest =>
    if c = '.' then some ([], rest)
    else
      match splitOnceDot rest with
      | some (h, t) => some (c :: h, t)
      | none => none

theorem splitOnceDot_tail_lt (s h t : Str) (he : splitOnceDot s = some (h, t)) :
    t.length < s.length := by
  induction s generalizing h t with
  | nil => simp [splitOnceDot] at he
  | cons c rest ih =>
    by_cases hc : c = '.'
    · simp [splitOnceDot, hc] at he
      simp [← he.2, List.length_cons]
    · simp only [splitOnceDot, hc, if_false] at he
      cases hrest : splitOnceDot rest with
      | none => rw [hrest] at he; simp at he
      | some p =>
        rw [hrest] at he
        cases p with
        | mk h' t' =>
          simp at he
          have := ih h' t' hrest
          simp [← he.2, List.length_cons]
          omega

/-- The `while let Some((head, tail)) = nested_key.split_once('.')` loop of
`Event::get` (event.rs lines 138-151), written as recursion on the remaining
dotted key: split off `head`; the value at `head` must be a map; inside it,
first try the whole remaining suffix `tail` as a literal key, else descend. -/
def getAux (current : List (Str × EventValue)) (k : Str) : Option EventValue :=
  match h : splitOnceDot k with
  | none => none
  | some (head, tail) =>
    match mapGet current head with
    | some (EventValue.Map m) =>
      match mapGet m tail with
      | some v => some v
      | none => getAux m tail
    | _ => none
termination_by k.length
decreasing_by exact splitOnceDot_tail_lt k head tail h

/-- `Event::get` (event.rs lines 133-152): the full key tried literally at
top level, then the descent loop. -/
def Event.get (e : Event) (key : Str) : Option EventValue :=
  match mapGet e.inner key with
  | some ev => some ev
  | none => getAux e.inner key

/-- Lookup as claim C10 describes it: at every level of the descent the full
remaining dotted suffix is first tried as a literal key of the current map
(shadowing any deeper nested path); otherwise the head segment must name a
nested map to descend into; reaching a non-map value or resolving nowhere
gives `none`. -/
def specGet (m : List (Str × EventValue)) (k : Str) : Option EventValue :=
  match mapGet m k with
  | some v => some v
  | none =>
    match h : splitOnceDot k with
    | none => none
    | some (head, tail) =>
      match mapGet m head with
      | some (EventValue.Map m2) => specGet m2 tail
      | _ => none
termination_by k.length
decreasing_by exact splitOnceDot_tail_lt k head tail h

theorem getAux_spec (n : Nat) (k : Str) (hk : k.length ≤ n)
    (m : List (Str × EventValue)) :
    (match mapGet m k with
     | some v => some v
     | none => getAux m k) = specGet m k := by
  induction n generalizing k m with
  | zero =>
    have hk0 : k = [] := by
      cases k with
      | nil => rfl
      | cons c cs => simp at hk
    subst hk0
    rw [specGet, getAux]
    cases mapGet m [] <;> simp [splitOnceDot]
  | succ n ih =>
    rw [specGet, getAux]
    cases hm : mapGet m k with
    | some v => simp
    | none =>
      simp only
      cases hs : splitOnceDot k with
      | none => simp
      | some p =>
        cases p with
        | mk head tail =>
          simp only
          cases hh : mapGet m head with
          | none => simp
          | some ev =>
            cases ev with
            | Value v => simp
            | Sequence vs => simp
            | Map m2 =>
              simp only
              have htail : tail.length ≤ n := by
                have := splitOnceDot_tail_lt k head tail hs
                omega
              exact ih tail htail m2

/-- C10: `Event::get` tries the full remaining dotted suffix as a literal
key at every level of the descent (literal keys shadow deeper nested
paths), returns `none` on reaching a non-map or resolving nowhere, and is
extensionally the lookup `specGet` described by the claim; instantiated
shadowing example: `get "a.b.c"` on `{a: {"b.c": v, b: {c: w}}}` yields
`v`, not the nested `w`. -/
theorem c10_event_get_suffix_shadowing :
    (∀ (e : Event) (k : Str), e.get k = specGet e.inner k) ∧
    Event.get
      ⟨[(['a'],
         EventValue.Map
           [(['b', '.', 'c'], EventValue.Value (.String ['v'])),
            (['b'], EventValue.Map [(['c'], EventValue.Value (.String ['w']))])])]⟩
      ['a', '.', 'b', '.', 'c'] = some (EventValue.Value (.String ['v'])) := by
  constructor
  · intro e k
    have := getAux_spec k.length k (le_refl _) e.inner
    rw [Event.get, ← this]
  · rw [Event.get, getAux]
    rfl

/-! ## Wildcard patterns, synthesised regexes and the global pattern cache
(src/src/field/value.rs) -/

/-- `MatchModifier` from src/src/field/modifier.rs lines 8-19 (`Exists` is
spelled `existsM`, as `exists` is a Lean keyword). -/
inductive MatchModifier where
  | contains | startswith | endswith | existsM | gt | gte | lt | lte | re | cidr
  deriving DecidableEq, Repr

/-- One atom of a regex synthesised from a wildcard pattern: an (escaped)
literal character, `.` or `.*`. -/
inductive GAtom where
  | lit (c : Char)
  | anyOne
  | anyRun
  deriving DecidableEq, Repr

/-- The compiled form of a regex string synthesised by
`FieldValue::convert_to_regex`: an optional `(?i)` flag, optional `^` / `$`
anchors, and the atom sequence of the body. -/
structure GlobRegex where
  ci : Bool
  aStart : Bool
  aEnd : Bool
  atoms : List GAtom
  deriving DecidableEq, Repr

/-- The character loop of `FieldValue::convert_to_regex` (value.rs lines
205-230), producing the body atoms.  The boolean is the loop's
`found_non_escape_backslash` flag: a backslash whose follower is not a
wildcard is emitted as a literal and sets the flag, so that the follower
(in particular another backslash) is also taken literally. -/
def buildAtoms : Bool → Str → List GAtom
  | _, [] => []
  | found, c :: rest =>
    if found = false ∧ c = '\\' then
      match rest with
      | [] => [GAtom.lit '\\']
      | c2 :: rest2 =>
        if c2 = '*' || c2 = '?' then GAtom.lit c2 :: buildAtoms false rest2
        else GAtom.lit '\\' :: buildAtoms true (c2 :: rest2)
    else if c = '*' then GAtom.anyRun :: buildAtoms found rest
    else if c = '?' then GAtom.anyOne :: buildAtoms found rest
    else GAtom.lit c :: buildAtoms false rest

/-- The regex cache `PATTERN_CACHE` (value.rs lines 13-14): a single global
map from the raw pattern string to the compiled regex, here made an
explicit state value.  Insertion conses in front; lookup takes the first
binding, which models `HashMap`'s replace-on-insert. -/
abbrev Cache := List (Str × GlobRegex)

/-- `FieldValue::get_regex` (value.rs lines 252-258). -/
def get_regex (cache : Cache) (pattern : Str) : Option GlobRegex :=
  match cache with
  | [] => none
  | (k, r) :: rest => if k == pattern then some r else get_regex rest pattern

/-- `FieldValue::insert_regex` (value.rs lines 261-266): compile the full
pattern and cache it under the raw pattern key. -/
def insert_regex (cache : Cache) (pattern : Str) (r : GlobRegex) :
    GlobRegex × Cache :=
  (r, (pattern, r) :: cache)

/-- `FieldValue::convert_to_regex` (value.rs lines 195-241): skip a literal
`(?i)` head, compile the body to atoms, anchor according to the pattern
type (`Contains` unanchored, `StartsWith` `^`, `EndsWith` `$`, anything
else fully anchored), apply `case_compare` (prepend `(?i)` unless `cased`),
and insert into the cache keyed by the raw pattern. -/
def convert_to_regex (cache : Cache) (pt : MatchModifier) (pattern : Str)
    (cased : Bool) : GlobRegex × Cache :=
  let ciHead := strStarts pattern ['(', '?', 'i', ')']
  let body := if ciHead then pattern.drop 4 else pattern
  let anchors : Bool × Bool :=
    match pt with
    | .contains => (false, false)
    | .startswith => (true, false)
    | .endswith => (false, true)
    | _ => (true, true)
  insert_regex cache pattern
    { ci := ciHead || !cased, aStart := anchors.1, aEnd := anchors.2,
      atoms := buildAtoms false body }

/-- Full match of an atom sequence against a whole character list (the
semantics of the synthesised regex body). -/
def matchFull : List GAtom → Str → Bool
  | [], t => t.isEmpty
  | GAtom.lit _ :: _, [] => false
  | GAtom.lit c :: as_, x :: xs => c == x && matchFull as_ xs
  | GAtom.anyOne :: _, [] => false
  | GAtom.anyOne :: as_, _ :: xs => matchFull as_ xs
  | GAtom.anyRun :: as_, t => t.tails.any (fun suf => matchFull as_ suf)

/-- Lower the literal atoms (the effect of the `(?i)` flag on the pattern
side). -/
def lowAtom : GAtom → GAtom
  | .lit c => .lit c.toLower
  | a => a

/-- `Regex::is_match` of a synthesised regex: regex search semantics.  An
unanchored side is equivalent to padding the body with `.*`, and the `(?i)`
flag lowercases both the subject and the literal atoms. -/
def regexIsMatch (r : GlobRegex) (target : Str) : Bool :=
  let t := if r.ci then lowerStr target else target
  let atoms := if r.ci then r.atoms.map lowAtom else r.atoms
  matchFull
    ((if r.aStart then [] else [GAtom.anyRun]) ++ atoms ++
      (if r.aEnd then [] else [GAtom.anyRun])) t

/-- `FieldValue::contains_unescaped_wildcards` (value.rs lines 288-307):
a backslash swallows a following `*`, `?` or `\`; any other `*` or `?` is
an unescaped wildcard. -/
def contains_unescaped_wildcards : Str → Bool
  | [] => false
  | ['\\'] => false
  | '\\' :: c :: rest2 =>
    if c = '*' || c = '?' || c = '\\' then contains_unescaped_wildcards rest2
    else contains_unescaped_wildcards (c :: rest2)
  | c :: rest =>
    if c = '*' || c = '?' then true else contains_unescaped_wildcards rest

/-- `FieldValue::pattern_to_regex_match` (value.rs lines 269-282): use the
cached regex for the raw pattern string if present (whatever pattern type
or casedness it was compiled under), else compile and cache. -/
def pattern_to_regex_match (cache : Cache) (pt : MatchModifier)
    (pattern target : Str) (cased : Bool) : Bool × Cache :=
  match get_regex cache pattern with
  | some r => (regexIsMatch r target, cache)
  | none =>
    let (r, cache') := convert_to_regex cache pt pattern cased
    (regexIsMatch r target, cache')

namespace FieldValue

/-- `FieldValue::contains` (value.rs lines 310-325), with the global cache
threaded explicitly. -/
def contains (self other : FieldValue) (cased : Bool) (cache : Cache) :
    Bool × Cache :=
  match self, other with
  | .String a, .String b =>
    if contains_unescaped_wildcards b then
      pattern_to_regex_match cache .contains b a cased
    else if cased then (strContains a b, cache)
    else (strContains (lowerStr a) (lowerStr b), cache)
  | _, _ => (false, cache)

/-- `FieldValue::starts_with` (value.rs lines 328-342). -/
def starts_with (self other : FieldValue) (cased : Bool) (cache : Cache) :
    Bool × Cache :=
  match self, other with
  | .String a, .String b =>
    if contains_unescaped_wildcards b then
      pattern_to_regex_match cache .startswith b a cased
    else if cased then (strStarts a b, cache)
    else (strStarts (lowerStr a) (lowerStr b), cache)
  | _, _ => (false, cache)

/-- `FieldValue::ends_with` (value.rs lines 345-359). -/
def ends_with (self other : FieldValue) (cased : Bool) (cache : Cache) :
    Bool × Cache :=
  match self, other with
  | .String a, .String b =>
    if contains_unescaped_wildcards b then
      pattern_to_regex_match cache .endswith b a cased
    else if cased then (strEnds a b, cache)
    else (strEnds (lowerStr a) (lowerStr b), cache)
  | _, _ => (false, cache)

/-- `FieldValue::is_equal` (value.rs lines 362-376): for two strings, a
compare-value with unescaped wildcards goes through the regex path with
pattern type `Contains`; otherwise direct (possibly case-folded) equality;
non-string pairs fall back to strict `PartialEq`. -/
def is_equal (self other : FieldValue) (cased : Bool) (cache : Cache) :
    Bool × Cache :=
  match self, other with
  | .String a, .String b =>
    if contains_unescaped_wildcards b then
      pattern_to_regex_match cache .contains b a cased
    else if cased then (a == b, cache)
    else (lowerStr a == lowerStr b, cache)
  | _, _ => (FieldValue.eq self other, cache)

end FieldValue

/-! ## Claim C2: implicit equality on strings -/

/-- Fully anchored glob matching as the claim (and spec section 4.5)
describes it: the glob must cover the entire target; `*` matches any run,
`?` exactly one character, and a backslash escapes a following `*`, `?` or
`\`; any other backslash is a literal.  First argument is the pattern,
second the target. -/
def claimGlobFull : Str → Str → Bool
  | [], ts => ts.isEmpty
  | ['\\'], ts => ts == ['\\']
  | '\\' :: p :: ps, ts =>
    if p = '*' || p = '?' || p = '\\' then
      match ts with
      | t :: ts2 => p == t && claimGlobFull ps ts2
      | [] => false
    else
      match ts with
      | t :: ts2 => '\\' == t && claimGlobFull (p :: ps) ts2
      | [] => false
  | '*' :: ps, ts => ts.tails.any (fun suf => claimGlobFull ps suf)
  | '?' :: ps, ts =>
    match ts with
    | _ :: ts2 => claimGlobFull ps ts2
    | [] => false
  | c :: ps, ts =>
    match ts with
    | t :: ts2 => c == t && claimGlobFull ps ts2
    | [] => false

/-- String equality semantics exactly as claim C2 states it (no match
modifier, `cased` unset): the lowercase foldings are equal, except that a
compare-value containing an unescaped wildcard is matched as a fully
anchored glob over the whole target. -/
def claimStringEqual (target pattern : Str) : Bool :=
  if contains_unescaped_wildcards pattern then
    claimGlobFull (lowerStr pattern) (lowerStr target)
  else lowerStr target == lowerStr pattern

/-- Counterexample to C2 as stated: with target `"zzab"` and compare-value
`"a*b"`, the claim's fully anchored glob rejects (the glob does not cover
the whole target), but `FieldValue::is_equal` compiles the wildcard with
pattern type `Contains`, i.e. unanchored, and accepts. -/
theorem c2_counterexample :
    (FieldValue.is_equal (.String ['z', 'z', 'a', 'b'])
        (.String ['a', '*', 'b']) false []).fst = true ∧
    claimStringEqual ['z', 'z', 'a', 'b'] ['a', '*', 'b'] = false := by
  decide

/-- Glob matching against some prefix of the target, with the engine's
backslash handling: `\*` and `\?` denote literal `*` and `?`, while a
backslash before any other character stands for a literal backslash
followed by that character taken literally (so `\\*` is two literal
backslashes and a wildcard run).  This is the direct recursive semantics
used to state the amended C2. -/
def globPre : Str → Str → Bool
  | [], _ => true
  | c :: ps, ts =>
    if c = '\\' then
      match ps with
      | [] =>
        (match ts with
         | t :: _ => '\\' == t
         | [] => false)
      | p :: ps2 =>
        if p = '*' || p = '?' then
          match ts with
          | t :: ts2 => p == t && globPre ps2 ts2
          | [] => false
        else
          match ts with
          | t :: ts2 =>
            '\\' == t &&
              (match ts2 with
               | u :: ts3 => p == u && globPre ps2 ts3
               | [] => false)
          | [] => false
    else if c = '*' then ts.tails.any (fun suf => globPre ps suf)
    else if c = '?' then
      (match ts with
       | _ :: ts2 => globPre ps ts2
       | [] => false)
    else
      (match ts with
       | t :: ts2 => c == t && globPre ps ts2
       | [] => false)

/-- Unanchored (substring) glob matching: some infix of the target matches
the whole glob, i.e. some suffix has a matching prefix. -/
def globSub (p t : Str) : Bool := t.tails.any (fun suf => globPre p suf)

theorem toNat_ofNat_valid (n : Nat) (h : n < 55296) :
    (Char.ofNat n).toNat = n := by
  rw [Char.ofNat, dif_pos (Or.inl h)]
  rfl

/-- For a character `d` that is neither an uppercase nor a lowercase basic
latin letter, `toLower c = d` holds exactly for `c = d`. -/
theorem toLower_eq_special (c d : Char) (h65 : d.toNat < 65 ∨ 90 < d.toNat)
    (h97 : d.toNat < 97 ∨ 122 < d.toNat) : (Char.toLower c = d) ↔ (c = d) := by
  have hdef : Char.toLower c =
      if c.toNat ≥ 65 ∧ c.toNat ≤ 90 then Char.ofNat (c.toNat + 32) else c := rfl
  rw [hdef]
  split
  case isTrue hif =>
    constructor
    · intro h
      exfalso
      have hv : (Char.ofNat (c.toNat + 32)).toNat = c.toNat + 32 :=
        toNat_ofNat_valid _ (by omega)
      rw [h] at hv
      omega
    · intro h
      exfalso
      rw [h] at hif
      omega
  case isFalse => exact Iff.rfl

theorem toLower_eq_star (c : Char) : (Char.toLower c = '*') = (c = '*') := by
  rw [toLower_eq_special c '*' (by decide) (by decide)]

theorem toLower_eq_question (c : Char) : (Char.toLower c = '?') = (c = '?') := by
  rw [toLower_eq_special c '?' (by decide) (by decide)]

theorem toLower_eq_backslash (c : Char) : (Char.toLower c = '\\') = (c = '\\') := by
  rw [toLower_eq_special c '\\' (by decide) (by decide)]

theorem lowerStr_nil : lowerStr [] = [] := rfl

theorem lowerStr_cons (c : Char) (r : Str) :
    lowerStr (c :: r) = Char.toLower c :: lowerStr r := rfl

theorem buildAtoms_nil (f : Bool) : buildAtoms f [] = [] := rfl

theorem buildAtoms_bs_nil : buildAtoms false ['\\'] = [GAtom.lit '\\'] := by
  rw [buildAtoms.eq_def]
  simp

theorem buildAtoms_bs_wild (c : Char) (rest2 : Str)
    (h : (c = '*' || c = '?') = true) :
    buildAtoms false ('\\' :: c :: rest2) =
      GAtom.lit c :: buildAtoms false rest2 := by
  rw [buildAtoms.eq_def]
  simp [h]

theorem buildAtoms_bs_nonwild (c : Char) (rest2 : Str)
    (h : (c = '*' || c = '?') = false) :
    buildAtoms false ('\\' :: c :: rest2) =
      GAtom.lit '\\' :: buildAtoms true (c :: rest2) := by
  rw [buildAtoms.eq_def]
  simp [h]

theorem buildAtoms_star (f : Bool) (rest : Str) :
    buildAtoms f ('*' :: rest) = GAtom.anyRun :: buildAtoms f rest := by
  cases f <;> rw [buildAtoms.eq_def] <;> simp

theorem buildAtoms_question (f : Bool) (rest : Str) :
    buildAtoms f ('?' :: rest) = GAtom.anyOne :: buildAtoms f rest := by
  cases f <;> rw [buildAtoms.eq_def] <;> simp

theorem buildAtoms_other (f : Bool) (c : Char) (rest : Str)
    (h1 : c ≠ '\\' ∨ f = true) (hstar : c ≠ '*') (hq : c ≠ '?') :
    buildAtoms f (c :: rest) = GAtom.lit c :: buildAtoms false rest := by
  cases f with
  | true => rw [buildAtoms.eq_def]; simp [hstar, hq]
  | false =>
    rcases h1 with h1 | h1
    · rw [buildAtoms.eq_def]; simp [h1, hstar, hq]
    · exact absurd h1 (by decide)

/-- Lowering the synthesised literal atoms is the same as compiling the
lowered pattern: `toLower` never creates nor destroys a `\`, `*` or `?`. -/
theorem buildAtoms_lower (f : Bool) (p : Str) :
    (buildAtoms f p).map lowAtom = buildAtoms f (lowerStr p) := by
  suffices H : ∀ (n : Nat) (f : Bool) (p : Str), p.length ≤ n →
      (buildAtoms f p).map lowAtom = buildAtoms f (lowerStr p) by
    exact H p.length f p (le_refl _)
  intro n
  induction n with
  | zero =>
    intro f p hn
    have hp : p = [] := by
      cases p with
      | nil => rfl
      | cons c cs => simp at hn
    subst hp
    simp [buildAtoms_nil, lowerStr_nil]
  | succ n ih =>
  intro f p hn
  cases p with
  | nil => simp [buildAtoms_nil, lowerStr_nil]
  | cons c rest =>
    have hlen : rest.length ≤ n := by
      simp only [List.length_cons] at hn
      omega
    by_cases hstar : c = '*'
    · subst hstar
      rw [lowerStr_cons, show Char.toLower '*' = '*' from by decide,
        buildAtoms_star, buildAtoms_star, List.map_cons]
      rw [show lowAtom GAtom.anyRun = GAtom.anyRun from rfl,
        ih f rest hlen]
    · by_cases hq : c = '?'
      · subst hq
        rw [lowerStr_cons, show Char.toLower '?' = '?' from by decide,
          buildAtoms_question, buildAtoms_question, List.map_cons]
        rw [show lowAtom GAtom.anyOne = GAtom.anyOne from rfl,
          ih f rest hlen]
      · by_cases hbs : c = '\\'
        · subst hbs
          cases f with
          | true =>
            rw [lowerStr_cons, show Char.toLower '\\' = '\\' from by decide]
            rw [buildAtoms_other true '\\' rest (Or.inr rfl) (by decide) (by decide),
              buildAtoms_other true '\\' (lowerStr rest) (Or.inr rfl) (by decide)
                (by decide), List.map_cons]
            rw [show lowAtom (GAtom.lit '\\') = GAtom.lit '\\' from by decide,
              ih false rest hlen]
          | false =>
            cases rest with
            | nil =>
              rw [lowerStr_cons, lowerStr_nil,
                show Char.toLower '\\' = '\\' from by decide,
                buildAtoms_bs_nil]
              decide
            | cons c2 rest2 =>
              have hlen2 : rest2.length ≤ n := by
                simp only [List.length_cons] at hn
                omega
              rw [lowerStr_cons, lowerStr_cons,
                show Char.toLower '\\' = '\\' from by decide]
              by_cases hw : (c2 = '*' || c2 = '?') = true
              · have hc2 : Char.toLower c2 = c2 := by
                  rcases Bool.or_eq_true _ _ |>.mp hw with h | h <;>
                    simp only [decide_eq_true_eq] at h <;> subst h <;> decide
                rw [hc2, buildAtoms_bs_wild c2 rest2 hw,
                  buildAtoms_bs_wild c2 (lowerStr rest2) hw, List.map_cons]
                have : lowAtom (GAtom.lit c2) = GAtom.lit c2 := by
                  simp [lowAtom, hc2]
                rw [this, ih false rest2 hlen2]
              · have hc2star : c2 ≠ '*' := by
                  intro h; rw [h] at hw; simp at hw
                have hc2q : c2 ≠ '?' := by
                  intro h; rw [h] at hw; simp at hw
                have hlstar : Char.toLower c2 ≠ '*' := by
                  rw [ne_eq, toLower_eq_star]; exact hc2star
                have hlq : Char.toLower c2 ≠ '?' := by
                  rw [ne_eq, toLower_eq_question]; exact hc2q
                rw [buildAtoms_bs_nonwild c2 rest2 (by simp [hc2star, hc2q]),
                  buildAtoms_bs_nonwild (Char.toLower c2) (lowerStr rest2)
                    (by simp [hlstar, hlq])]
                rw [buildAtoms_other true c2 rest2 (Or.inr rfl) hc2star hc2q,
                  buildAtoms_other true (Char.toLower c2) (lowerStr rest2)
                    (Or.inr rfl) hlstar hlq]
                simp only [List.map_cons, lowAtom]
                rw [show Char.toLower '\\' = '\\' from by decide,
                  ih false rest2 hlen2]
        · have hl_bs : Char.toLower c ≠ '\\' := by
            rw [ne_eq, toLower_eq_backslash]; exact hbs
          have hl_star : Char.toLower c ≠ '*' := by
            rw [ne_eq, toLower_eq_star]; exact hstar
          have hl_q : Char.toLower c ≠ '?' := by
            rw [ne_eq, toLower_eq_question]; exact hq
          rw [lowerStr_cons,
            buildAtoms_other f c rest (Or.inl hbs) hstar hq,
            buildAtoms_other f (Char.toLower c) (lowerStr rest) (Or.inl hl_bs)
              hl_star hl_q, List.map_cons]
          simp only [lowAtom]
          rw [ih false rest hlen]

theorem matchFull_nil (t : Str) : matchFull [] t = t.isEmpty := by
  cases t <;> rfl

theorem matchFull_lit (c : Char) (as_ : List GAtom) (t : Str) :
    matchFull (GAtom.lit c :: as_) t =
      (match t with
       | x :: xs => c == x && matchFull as_ xs
       | [] => false) := by
  cases t <;> rfl

theorem matchFull_anyOne (as_ : List GAtom) (t : Str) :
    matchFull (GAtom.anyOne :: as_) t =
      (match t with
       | _ :: xs => matchFull as_ xs
       | [] => false) := by
  cases t <;> rfl

theorem matchFull_anyRun (as_ : List GAtom) (t : Str) :
    matchFull (GAtom.anyRun :: as_) t =
      t.tails.any (fun suf => matchFull as_ suf) := by
  cases t <;> rfl

theorem tails_any_isEmpty (t : Str) : (t.tails.any fun s => s.isEmpty) = true := by
  induction t with
  | nil => rfl
  | cons c t ih => simp only [List.tails_cons, List.any_cons, ih, Bool.or_true]

theorem matchFull_anyRun_only (t : Str) : matchFull [GAtom.anyRun] t = true := by
  rw [matchFull_anyRun]
  simp only [matchFull_nil]
  exact tails_any_isEmpty t

theorem globPre_nil (ts : Str) : globPre [] ts = true := rfl

theorem globPre_star (ps ts : Str) :
    globPre ('*' :: ps) ts = ts.tails.any (fun suf => globPre ps suf) := by
  rw [globPre.eq_def]
  simp

theorem globPre_question (ps ts : Str) :
    globPre ('?' :: ps) ts =
      (match ts with
       | _ :: ts2 => globPre ps ts2
       | [] => false) := by
  rw [globPre.eq_def]
  simp

theorem globPre_other (c : Char) (ps ts : Str) (hbs : c ≠ '\\')
    (hstar : c ≠ '*') (hq : c ≠ '?') :
    globPre (c :: ps) ts =
      (match ts with
       | x :: xs => c == x && globPre ps xs
       | [] => false) := by
  rw [globPre.eq_def]
  simp [hbs, hstar, hq]

theorem globPre_bs_nil (ts : Str) :
    globPre ['\\'] ts =
      (match ts with
       | x :: _ => '\\' == x
       | [] => false) := by
  rw [globPre.eq_def]
  simp

theorem globPre_bs_wild (p : Char) (ps2 ts : Str)
    (hw : (p = '*' || p = '?') = true) :
    globPre ('\\' :: p :: ps2) ts =
      (match ts with
       | x :: xs => p == x && globPre ps2 xs
       | [] => false) := by
  rw [globPre.eq_def]
  simp [hw]

theorem globPre_bs_nonwild (p : Char) (ps2 ts : Str)
    (hw : (p = '*' || p = '?') = false) :
    globPre ('\\' :: p :: ps2) ts =
      (match ts with
       | x :: xs =>
         '\\' == x &&
           (match xs with
            | u :: ts3 => p == u && globPre ps2 ts3
            | [] => false)
       | [] => false) := by
  rw [globPre.eq_def]
  simp [hw]

/-- Correctness of the wildcard compiler against the direct glob semantics:
searching the compiled body padded with a trailing `.*` is exactly matching
the glob against some prefix of the subject. -/
theorem matchFull_buildAtoms (p t : Str) :
    matchFull (buildAtoms false p ++ [GAtom.anyRun]) t = globPre p t := by
  suffices H : ∀ (n : Nat) (p t : Str), p.length ≤ n →
      matchFull (buildAtoms false p ++ [GAtom.anyRun]) t = globPre p t by
    exact H p.length p t (le_refl _)
  intro n
  induction n with
  | zero =>
    intro p t hn
    have hp : p = [] := by
      cases p with
      | nil => rfl
      | cons c cs => simp at hn
    subst hp
    rw [buildAtoms_nil, globPre_nil, List.nil_append, matchFull_anyRun_only]
  | succ n ih =>
    intro p t hn
    cases p with
    | nil => rw [buildAtoms_nil, globPre_nil, List.nil_append, matchFull_anyRun_only]
    | cons c ps =>
      have hlen : ps.length ≤ n := by
        simp only [List.length_cons] at hn
        omega
      by_cases hstar : c = '*'
      · subst hstar
        rw [buildAtoms_star, List.cons_append, matchFull_anyRun, globPre_star]
        have hpt : ∀ s : Str,
            matchFull (buildAtoms false ps ++ [GAtom.anyRun]) s = globPre ps s :=
          fun s => ih ps s hlen
        simp only [hpt]
      · by_cases hq : c = '?'
        · subst hq
          rw [buildAtoms_question, List.cons_append, matchFull_anyOne,
            globPre_question]
          cases t with
          | nil => rfl
          | cons x xs => exact ih ps xs hlen
        · by_cases hbs : c = '\\'
          · subst hbs
            cases ps with
            | nil =>
              rw [buildAtoms_bs_nil, globPre_bs_nil]
              cases t with
              | nil => rfl
              | cons x xs =>
                simp only [List.cons_append, List.nil_append, matchFull_lit,
                  matchFull_anyRun_only, Bool.and_true]
            | cons p2 ps2 =>
              have hlen2 : ps2.length ≤ n := by
                simp only [List.length_cons] at hn
                omega
              by_cases hw : (p2 = '*' || p2 = '?') = true
              · rw [buildAtoms_bs_wild p2 ps2 hw, globPre_bs_wild p2 ps2 t hw,
                  List.cons_append, matchFull_lit]
                cases t with
                | nil => rfl
                | cons x xs => simp only [ih ps2 xs hlen2]
              · have hwf : (p2 = '*' || p2 = '?') = false :=
                  Bool.eq_false_iff.mpr hw
                have hp2star : p2 ≠ '*' := by
                  intro h; rw [h] at hwf; simp at hwf
                have hp2q : p2 ≠ '?' := by
                  intro h; rw [h] at hwf; simp at hwf
                rw [buildAtoms_bs_nonwild p2 ps2 hwf,
                  buildAtoms_other true p2 ps2 (Or.inr rfl) hp2star hp2q,
                  globPre_bs_nonwild p2 ps2 t hwf,
                  List.cons_append, List.cons_append, matchFull_lit]
                cases t with
                | nil => rfl
                | cons x xs =>
                  simp only [matchFull_lit]
                  cases xs with
                  | nil => rfl
                  | cons u ts3 => simp only [ih ps2 ts3 hlen2]
          · have hc : c ≠ '\\' := hbs
            rw [buildAtoms_other false c ps (Or.inl hc) hstar hq,
              globPre_other c ps t hc hstar hq, List.cons_append, matchFull_lit]
            cases t with
            | nil => rfl
            | cons x xs => simp only [ih ps xs hlen]

/-- Searching with an unanchored case-insensitive compiled wildcard body is
substring glob matching of the lowered pattern against the lowered target. -/
theorem regexIsMatch_contains_glob (b a : Str) :
    regexIsMatch
      { ci := true, aStart := false, aEnd := false, atoms := buildAtoms false b }
      a = globSub (lowerStr b) (lowerStr a) := by
  simp only [regexIsMatch, if_true, Bool.false_eq_true, if_false]
  rw [buildAtoms_lower false b, List.singleton_append, List.cons_append,
    matchFull_anyRun (buildAtoms false (lowerStr b) ++ [GAtom.anyRun]) (lowerStr a)]
  have hpt : ∀ s : Str,
      matchFull (buildAtoms false (lowerStr b) ++ [GAtom.anyRun]) s =
        globPre (lowerStr b) s :=
    fun s => matchFull_buildAtoms (lowerStr b) s
  simp only [hpt]
  rfl

/-- C2 amended: with `cased` unset, implicit string equality compares the
lowercase foldings, except that a compare-value containing an unescaped
wildcard is matched as an *unanchored* (substring) glob over the target
(the engine compiles it with pattern type `Contains`), where `\*`/`\?` are
literal wildcards and any other backslash is a literal character; stated
for a pattern not already cached and not beginning with a literal `(?i)`
(such a head would additionally be consumed as a case-insensitivity flag). -/
theorem c2_amended (a b : Str) (cache : Cache)
    (h1 : get_regex cache b = none)
    (h2 : strStarts b ['(', '?', 'i', ')'] = false) :
    (FieldValue.is_equal (.String a) (.String b) false cache).fst =
      (if contains_unescaped_wildcards b then
        globSub (lowerStr b) (lowerStr a)
      else lowerStr a == lowerStr b) := by
  cases hw : contains_unescaped_wildcards b with
  | false => simp [FieldValue.is_equal, hw]
  | true =>
    have hstep : (FieldValue.is_equal (.String a) (.String b) false cache).fst =
        regexIsMatch
          { ci := true, aStart := false, aEnd := false,
            atoms := buildAtoms false b } a := by
      simp [FieldValue.is_equal, hw, pattern_to_regex_match, h1,
        convert_to_regex, h2, insert_regex]
    rw [hstep, regexIsMatch_contains_glob]
    simp

/-- Witness for the amended C2 at target `"zzab"`, pattern `"a*b"`, empty
cache. -/
theorem c2_amended_witness :
    get_regex [] ['a', '*', 'b'] = none ∧
    strStarts ['a', '*', 'b'] ['(', '?', 'i', ')'] = false ∧
    (FieldValue.is_equal (.String ['z', 'z', 'a', 'b'])
        (.String ['a', '*', 'b']) false []).fst =
      (if contains_unescaped_wildcards ['a', '*', 'b'] then
        globSub (lowerStr ['a', '*', 'b']) (lowerStr ['z', 'z', 'a', 'b'])
      else lowerStr ['z', 'z', 'a', 'b'] == lowerStr ['a', '*', 'b']) :=
  ⟨by decide, by decide,
    c2_amended ['z', 'z', 'a', 'b'] ['a', '*', 'b'] [] (by decide) (by decide)⟩

/-! ## The current revision's Field evaluator

src/src/field.rs holds an older revision of `Field` (no `exists`,
`fieldref` or `cased` handling and an untyped global cache is absent from
it), while src/src/field/modifier.rs and src/src/field/value.rs are the
current revision.  The current revision's `Field` struct and
`Field::evaluate`/`Field::compare` are not under src/; they are modelled
from the specification (section 4.5) below and dispatch into the
source-embedded `FieldValue` operations. -/

/-- `Utf16Modifier` from modifier.rs lines 21-25. -/
inductive Utf16Modifier where
  | utf16le | utf16be
  deriving DecidableEq, Repr

/-- `ValueTransformer` from modifier.rs lines 27-34. -/
inductive ValueTransformer where
  | base64 (m : Option Utf16Modifier)
  | base64offset (m : Option Utf16Modifier)
  | windash
  | cased
  deriving DecidableEq, Repr

/-- `Modifier` from modifier.rs lines 36-43. -/
structure Modifier where
  match_all : Bool
  fieldref : Bool
  cased : Bool
  match_modifier : Option MatchModifier
  value_transformer : List (Option ValueTransformer)

/-- The default modifier (`Modifier::default()`). -/
def Modifier.default : Modifier :=
  { match_all := false, fieldref := false, cased := false,
    match_modifier := none, value_transformer := [] }

/-- Modelled from the spec: the current revision's `Field` struct, which is
not under src/ (src/src/field.rs is an older revision).  Besides `name`,
`values` and `modifier` it stores the exists polarity taken from the
field's single boolean value when the `exists` modifier is used
(spec section 4.5: "If `exists`, the single value must be boolean; store it
as the exists polarity"). -/
structure Field where
  name : Str
  values : List FieldValue
  modifier : Modifier
  existsMod : Option Bool

/-- Modelled from the spec (section 4.5, compare dispatch) and the older
revision's `Field::compare` (field.rs lines 228-248): standalone `Re`/`Cidr`
first, then the match modifier, implicit equality when none; the string
comparisons thread the global pattern cache. -/
def Field.compare (f : Field) (target value : FieldValue) (cache : Cache) :
    Bool × Cache :=
  match f.modifier.match_modifier with
  | some .re => (FieldValue.is_regex_match value (FieldValue.value_to_string target), cache)
  | some .cidr => (FieldValue.cidr_contains value target, cache)
  | some .contains => FieldValue.contains target value f.modifier.cased cache
  | some .startswith => FieldValue.starts_with target value f.modifier.cased cache
  | some .endswith => FieldValue.ends_with target value f.modifier.cased cache
  | some .gt => (FieldValue.gtV target value, cache)
  | some .gte => (FieldValue.geV target value, cache)
  | some .lt => (FieldValue.ltV target value, cache)
  | some .lte => (FieldValue.leV target value, cache)
  | some .existsM => (false, cache)
  | none => FieldValue.is_equal target value f.modifier.cased cache

/-- Modelled from the spec (section 4.5, step 5): when `fieldref` is set the
compare-value is looked up as a field name in the event; a missing or
non-scalar resolution skips this compare-value. -/
def Field.resolveCmp (f : Field) (e : Event) (v : FieldValue) :
    Option FieldValue :=
  if f.modifier.fieldref then
    match e.get (FieldValue.value_to_string v) with
    | some (EventValue.Value w) => some w
    | _ => none
  else some v

/-- The compare loop of `Field::evaluate` with `match_all` short-circuiting
(field.rs lines 260-271, extended per spec section 4.5 step 5 with the
`fieldref` skip). -/
def Field.evalValues (f : Field) (e : Event) (target : FieldValue) :
    List FieldValue → Cache → Bool × Cache
  | [], cache => (f.modifier.match_all, cache)
  | v :: vs, cache =>
    match f.resolveCmp e v with
    | none => Field.evalValues f e target vs cache
    | some cmp =>
      let fc := f.compare target cmp cache
      if fc.fst && !f.modifier.match_all then (true, fc.snd)
      else if !fc.fst && f.modifier.match_all then (false, fc.snd)
      else Field.evalValues f e target vs fc.snd

/-- Modelled from the spec: `Field::evaluate` of the current revision
(section 4.5): resolve the name; missing → true iff `exists = Some(false)`;
present with `exists` set → the stored polarity (`Some(true)` → true
unconditionally, per the claim and the repository's exists tests);
non-scalar target → false; empty values → true (defensive); otherwise the
compare loop.  The global pattern cache is threaded through. -/
def Field.evaluate (f : Field) (e : Event) (cache : Cache) : Bool × Cache :=
  match e.get f.name with
  | none => (f.existsMod == some false, cache)
  | some ev =>
    match f.existsMod with
    | some b => (b, cache)
    | none =>
      match ev with
      | EventValue.Value target =>
        if f.values.isEmpty then (true, cache)
        else Field.evalValues f e target f.values cache
      | _ => (false, cache)

/-- C1: for a field whose modifier has `exists` set, evaluation depends only
on presence of the field in the event and the exists polarity: a missing
field evaluates to true exactly when the polarity is `some false`; a present
field with polarity `some true` evaluates to true unconditionally; and the
compare-values are never inspected (replacing them does not change the
result, nor the cache). -/
theorem c1_exists_semantics (f : Field) (e : Event) (b : Bool) (cache : Cache)
    (h : f.existsMod = some b) :
    (e.get f.name = none →
      ((Field.evaluate f e cache).fst = true ↔ b = false)) ∧
    (∀ ev, e.get f.name = some ev → b = true →
      (Field.evaluate f e cache).fst = true) ∧
    (∀ vs, Field.evaluate { f with values := vs } e cache =
      Field.evaluate f e cache) := by
  refine ⟨?_, ?_, ?_⟩
  · intro hm
    rw [Field.evaluate, hm, h]
    cases b <;> simp
  · intro ev hm hb
    rw [Field.evaluate, hm, h, hb]
  · intro vs
    rw [Field.evaluate, Field.evaluate]
    cases e.get f.name with
    | none => simp [h]
    | some ev => simp [h]

/-- Witness for C1: `OriginalFileName|exists: false` against an event not
containing that field evaluates to true; with the field present and polarity
true it evaluates to true; and the values list is irrelevant. -/
theorem c1_exists_semantics_witness :
    (let f : Field :=
      { name := String.data "OriginalFileName", values := [.Boolean false],
        modifier := Modifier.default, existsMod := some false }
     let e : Event := ⟨[(String.data "Image", EventValue.Value (.String (String.data "X")))]⟩
     f.existsMod = some false ∧
     (e.get f.name = none →
       ((Field.evaluate f e []).fst = true ↔ false = false)) ∧
     (∀ ev, e.get f.name = some ev → false = true →
       (Field.evaluate f e []).fst = true) ∧
     (∀ vs, Field.evaluate { f with values := vs } e [] =
       Field.evaluate f e [])) :=
  ⟨rfl, c1_exists_semantics _ _ false [] rfl⟩

/-! ## Claim C6: the wildcard-regex cache is global, not per-field -/

/-- The raw pattern strings a field's literal compare-values can touch in
the cache. -/
def Field.patternKeys (f : Field) : List Str :=
  f.values.map FieldValue.value_to_string

/-- Two cache states agreeing on a set of keys. -/
def cacheAgree (K : List Str) (c1 c2 : Cache) : Prop :=
  ∀ k, k ∈ K → get_regex c1 k = get_regex c2 k

theorem get_regex_cons (k' : Str) (r : GlobRegex) (c : Cache) (k : Str) :
    get_regex ((k', r) :: c) k = if k' == k then some r else get_regex c k := rfl

theorem ptrm_agree (pt : MatchModifier) (pattern target : Str) (cased : Bool)
    (c1 c2 : Cache) (K : List Str) (hin : pattern ∈ K)
    (hag : cacheAgree K c1 c2) :
    (pattern_to_regex_match c1 pt pattern target cased).fst =
      (pattern_to_regex_match c2 pt pattern target cased).fst ∧
    cacheAgree K (pattern_to_regex_match c1 pt pattern target cased).snd
      (pattern_to_regex_match c2 pt pattern target cased).snd := by
  have heq := hag pattern hin
  unfold pattern_to_regex_match
  rw [heq]
  cases h : get_regex c2 pattern with
  | some r => exact ⟨rfl, hag⟩
  | none =>
    refine ⟨rfl, ?_⟩
    intro k hk
    simp only [convert_to_regex, insert_regex]
    rw [get_regex_cons, get_regex_cons]
    cases hpk : pattern == k
    · simp only [Bool.false_eq_true, if_false]
      exact hag k hk
    · rfl

theorem ptrm_local (pt : MatchModifier) (pattern target : Str) (cased : Bool)
    (c : Cache) (k : Str) (hk : k ≠ pattern) :
    get_regex (pattern_to_regex_match c pt pattern target cased).snd k =
      get_regex c k := by
  unfold pattern_to_regex_match
  cases h : get_regex c pattern with
  | some r => rfl
  | none =>
    simp only [convert_to_regex, insert_regex]
    rw [get_regex_cons]
    have : (pattern == k) = false := by
      cases hb : pattern == k
      · rfl
      · exact absurd (eq_of_beq hb).symm hk
    rw [this]
    simp

theorem compare_agree (f : Field) (target v : FieldValue) (c1 c2 : Cache)
    (K : List Str) (hin : FieldValue.value_to_string v ∈ K)
    (hag : cacheAgree K c1 c2) :
    (f.compare target v c1).fst = (f.compare target v c2).fst ∧
    cacheAgree K (f.compare target v c1).snd (f.compare target v c2).snd := by
  unfold Field.compare
  cases f.modifier.match_modifier with
  | none =>
    cases target <;> cases v <;> try exact ⟨rfl, hag⟩
    case String.String a b =>
      simp only [FieldValue.is_equal]
      cases hw : contains_unescaped_wildcards b
      · simp only [Bool.false_eq_true, if_false]
        cases f.modifier.cased <;> exact ⟨rfl, hag⟩
      · simp only [if_true]
        exact ptrm_agree .contains b a f.modifier.cased c1 c2 K hin hag
  | some mm =>
    cases mm
    case contains =>
      cases target <;> cases v <;> try exact ⟨rfl, hag⟩
      case String.String a b =>
        simp only [FieldValue.contains]
        cases hw : contains_unescaped_wildcards b
        · simp only [Bool.false_eq_true, if_false]
          cases f.modifier.cased <;> exact ⟨rfl, hag⟩
        · simp only [if_true]
          exact ptrm_agree .contains b a f.modifier.cased c1 c2 K hin hag
    case startswith =>
      cases target <;> cases v <;> try exact ⟨rfl, hag⟩
      case String.String a b =>
        simp only [FieldValue.starts_with]
        cases hw : contains_unescaped_wildcards b
        · simp only [Bool.false_eq_true, if_false]
          cases f.modifier.cased <;> exact ⟨rfl, hag⟩
        · simp only [if_true]
          exact ptrm_agree .startswith b a f.modifier.cased c1 c2 K hin hag
    case endswith =>
      cases target <;> cases v <;> try exact ⟨rfl, hag⟩
      case String.String a b =>
        simp only [FieldValue.ends_with]
        cases hw : contains_unescaped_wildcards b
        · simp only [Bool.false_eq_true, if_false]
          cases f.modifier.cased <;> exact ⟨rfl, hag⟩
        · simp only [if_true]
          exact ptrm_agree .endswith b a f.modifier.cased c1 c2 K hin hag
    all_goals exact ⟨rfl, hag⟩

theorem compare_local (f : Field) (target v : FieldValue) (c : Cache)
    (k : Str) (hk : k ≠ FieldValue.value_to_string v) :
    get_regex (f.compare target v c).snd k = get_regex c k := by
  unfold Field.compare
  cases f.modifier.match_modifier with
  | none =>
    cases target <;> cases v <;> try rfl
    case String.String a b =>
      simp only [FieldValue.is_equal]
      cases hw : contains_unescaped_wildcards b
      · cases f.modifier.cased <;> rfl
      · exact ptrm_local .contains b a f.modifier.cased c k hk
  | some mm =>
    cases mm
    case contains =>
      cases target <;> cases v <;> try rfl
      case String.String a b =>
        simp only [FieldValue.contains]
        cases hw : contains_unescaped_wildcards b
        · cases f.modifier.cased <;> rfl
        · exact ptrm_local .contains b a f.modifier.cased c k hk
    case startswith =>
      cases target <;> cases v <;> try rfl
      case String.String a b =>
        simp only [FieldValue.starts_with]
        cases hw : contains_unescaped_wildcards b
        · cases f.modifier.cased <;> rfl
        · exact ptrm_local .startswith b a f.modifier.cased c k hk
    case endswith =>
      cases target <;> cases v <;> try rfl
      case String.String a b =>
        simp only [FieldValue.ends_with]
        cases hw : contains_unescaped_wildcards b
        · cases f.modifier.cased <;> rfl
        · exact ptrm_local .endswith b a f.modifier.cased c k hk
    all_goals rfl

theorem resolveCmp_literal (f : Field) (e : Event) (v : FieldValue)
    (href : f.modifier.fieldref = false) : f.resolveCmp e v = some v := by
  rw [Field.resolveCmp, href]
  simp

theorem evalValues_agree (f : Field) (e : Event) (target : FieldValue)
    (vs : List FieldValue) (c1 c2 : Cache) (K : List Str)
    (href : f.modifier.fieldref = false)
    (hvs : ∀ v ∈ vs, FieldValue.value_to_string v ∈ K)
    (hag : cacheAgree K c1 c2) :
    (Field.evalValues f e target vs c1).fst =
      (Field.evalValues f e target vs c2).fst ∧
    cacheAgree K (Field.evalValues f e target vs c1).snd
      (Field.evalValues f e target vs c2).snd := by
  induction vs generalizing c1 c2 with
  | nil => exact ⟨rfl, hag⟩
  | cons v vs ih =>
    have hvK : FieldValue.value_to_string v ∈ K := hvs v (by simp)
    have hvs' : ∀ w ∈ vs, FieldValue.value_to_string w ∈ K := by
      intro w hw
      exact hvs w (by simp [hw])
    obtain ⟨hfst, hsnd⟩ := compare_agree f target v c1 c2 K hvK hag
    simp only [Field.evalValues, resolveCmp_literal f e v href]
    rw [hfst]
    cases hb : (f.compare target v c2).fst <;>
      cases hma : f.modifier.match_all <;>
        simp only [hma, Bool.not_true, Bool.not_false, Bool.and_true,
          Bool.and_false, Bool.true_and, Bool.false_and, if_true, if_false,
          Bool.false_eq_true, Bool.true_eq_false]
    · exact ih _ _ hvs' hsnd
    · exact ⟨trivial, hsnd⟩
    · exact ⟨trivial, hsnd⟩
    · exact ih _ _ hvs' hsnd

theorem evaluate_agree (f : Field) (e : Event) (c1 c2 : Cache) (K : List Str)
    (href : f.modifier.fieldref = false)
    (hvals : ∀ v ∈ f.values, FieldValue.value_to_string v ∈ K)
    (hag : cacheAgree K c1 c2) :
    (Field.evaluate f e c1).fst = (Field.evaluate f e c2).fst ∧
    cacheAgree K (Field.evaluate f e c1).snd (Field.evaluate f e c2).snd := by
  unfold Field.evaluate
  cases e.get f.name with
  | none => exact ⟨rfl, hag⟩
  | some ev =>
    cases f.existsMod with
    | some b => exact ⟨rfl, hag⟩
    | none =>
      cases ev with
      | Value target =>
        simp only
        cases f.values.isEmpty
        · simp only [Bool.false_eq_true, if_false]
          exact evalValues_agree f e target f.values c1 c2 K href hvals hag
        · simp only [if_true]
          exact ⟨trivial, hag⟩
      | Sequence vs => exact ⟨rfl, hag⟩
      | Map m => exact ⟨rfl, hag⟩

theorem evalValues_local (f : Field) (e : Event) (target : FieldValue)
    (vs : List FieldValue) (c : Cache) (k : Str)
    (href : f.modifier.fieldref = false)
    (hk : ∀ v ∈ vs, k ≠ FieldValue.value_to_string v) :
    get_regex (Field.evalValues f e target vs c).snd k = get_regex c k := by
  induction vs generalizing c with
  | nil => rfl
  | cons v vs ih =>
    have hkv : k ≠ FieldValue.value_to_string v := hk v (by simp)
    have hk' : ∀ w ∈ vs, k ≠ FieldValue.value_to_string w := by
      intro w hw
      exact hk w (by simp [hw])
    simp only [Field.evalValues, resolveCmp_literal f e v href]
    have hcl := compare_local f target v c k hkv
    cases hb : (f.compare target v c).fst <;>
      cases hma : f.modifier.match_all <;>
        simp only [hma, Bool.not_true, Bool.not_false, Bool.and_true,
          Bool.and_false, Bool.true_and, Bool.false_and, if_true, if_false,
          Bool.false_eq_true, Bool.true_eq_false]
    · rw [ih _ hk', hcl]
    · exact hcl
    · exact hcl
    · rw [ih _ hk', hcl]

theorem evaluate_local (f : Field) (e : Event) (c : Cache) (k : Str)
    (href : f.modifier.fieldref = false) (hk : k ∉ f.patternKeys) :
    get_regex (Field.evaluate f e c).snd k = get_regex c k := by
  have hk' : ∀ v ∈ f.values, k ≠ FieldValue.value_to_string v := by
    intro v hv heq
    exact hk (heq ▸ List.mem_map_of_mem FieldValue.value_to_string hv)
  unfold Field.evaluate
  cases e.get f.name with
  | none => rfl
  | some ev =>
    cases f.existsMod with
    | some b => rfl
    | none =>
      cases ev with
      | Value target =>
        simp only
        cases f.values.isEmpty
        · simp only [Bool.false_eq_true, if_false]
          exact evalValues_local f e target f.values c k href hk'
        · simp only [if_true]
      | Sequence vs => rfl
      | Map m => rfl

/-- Counterexample to C6 as stated: the cache is one global map keyed only
by the raw pattern string, so two distinct fields sharing the pattern
`"a*b"` but differing in match modifier interfere.  `f2` uses
`startswith`, whose freshly compiled anchored regex rejects the target
`"xab"`; but after evaluating `f1` (a `contains` field with the same
pattern) the cache holds the unanchored regex under key `"a*b"`, and `f2`
then accepts the same target. -/
theorem c6_counterexample :
    (Field.evaluate
        { name := ['f', '2'], values := [.String ['a', '*', 'b']],
          modifier := { match_all := false, fieldref := false, cased := false,
                        match_modifier := some .startswith,
                        value_transformer := [] },
          existsMod := none }
        ⟨[(['f', '1'], EventValue.Value (.String ['x', 'a', 'b'])),
          (['f', '2'], EventValue.Value (.String ['x', 'a', 'b']))]⟩
        []).fst = false ∧
    (Field.evaluate
        { name := ['f', '2'], values := [.String ['a', '*', 'b']],
          modifier := { match_all := false, fieldref := false, cased := false,
                        match_modifier := some .startswith,
                        value_transformer := [] },
          existsMod := none }
        ⟨[(['f', '1'], EventValue.Value (.String ['x', 'a', 'b'])),
          (['f', '2'], EventValue.Value (.String ['x', 'a', 'b']))]⟩
        (Field.evaluate
          { name := ['f', '1'], values := [.String ['a', '*', 'b']],
            modifier := { match_all := false, fieldref := false, cased := false,
                          match_modifier := some .contains,
                          value_transformer := [] },
            existsMod := none }
          ⟨[(['f', '1'], EventValue.Value (.String ['x', 'a', 'b'])),
            (['f', '2'], EventValue.Value (.String ['x', 'a', 'b']))]⟩
          []).snd).fst = true := by
  constructor
  · rw [Field.evaluate, show Event.get
      ⟨[(['f', '1'], EventValue.Value (.String ['x', 'a', 'b'])),
        (['f', '2'], EventValue.Value (.String ['x', 'a', 'b']))]⟩ ['f', '2'] =
      some (EventValue.Value (.String ['x', 'a', 'b'])) from rfl]
    decide
  · rw [Field.evaluate, Field.evaluate]
    decide

/-- C6 amended: the wildcard-regex compile cache is a single global map
keyed by the raw pattern string and shared by every field, so a field can
change another field's results when they share a pattern string under
different modifiers (see the counterexample); but for fields with literal
compare-values (`fieldref` unset) whose raw pattern-string sets are
disjoint, evaluating one field first never changes the other's result. -/
theorem c6_amended (f1 f2 : Field) (e1 e2 : Event) (cache : Cache)
    (h1 : f1.modifier.fieldref = false) (h2 : f2.modifier.fieldref = false)
    (hdisj : ∀ k, k ∈ Field.patternKeys f2 → k ∉ Field.patternKeys f1) :
    (Field.evaluate f2 e2 (Field.evaluate f1 e1 cache).snd).fst =
      (Field.evaluate f2 e2 cache).fst := by
  have hag : cacheAgree (Field.patternKeys f2)
      (Field.evaluate f1 e1 cache).snd cache := by
    intro k hk
    exact evaluate_local f1 e1 cache k h1 (hdisj k hk)
  exact (evaluate_agree f2 e2 _ cache (Field.patternKeys f2) h2
    (fun v hv => List.mem_map_of_mem FieldValue.value_to_string hv) hag).1

/-- Witness for the amended C6: a `contains` field on pattern `"a*b"` does
not disturb a `startswith` field on the distinct pattern `"c?d"`. -/
theorem c6_amended_witness :
    (let f1 : Field :=
      { name := ['f', '1'], values := [.String ['a', '*', 'b']],
        modifier := { match_all := false, fieldref := false, cased := false,
                      match_modifier := some .contains,
                      value_transformer := [] },
        existsMod := none }
     let f2 : Field :=
      { name := ['f', '2'], values := [.String ['c', '?', 'd']],
        modifier := { match_all := false, fieldref := false, cased := false,
                      match_modifier := some .startswith,
                      value_transformer := [] },
        existsMod := none }
     let e : Event :=
       ⟨[(['f', '1'], EventValue.Value (.String ['x', 'a', 'b'])),
         (['f', '2'], EventValue.Value (.String ['c', 'x', 'd']))]⟩
     (Field.evaluate f2 e (Field.evaluate f1 e []).snd).fst =
       (Field.evaluate f2 e []).fst) :=
  c6_amended _ _ _ _ [] rfl rfl (by decide)

/-! ## Condition lexer (src/src/detection/lexer.rs)

The Rust tokenizer walks the input character by character but mixes the
two index spaces of a Rust string: `i` is the CHARACTER ordinal from
`chars().enumerate()`, while `input_len = input.len()` is the BYTE length
and `input[start..end]` slices by BYTE offsets.  The faithful embedding is
`tokenizeRs` below, which tracks byte widths and models the slice panic as
`none`.  On inputs of single-byte characters the two index spaces
coincide; for those inputs the character-level scanner `tokenize` (which
carries the current word `cur` explicitly) is proved to agree with
`tokenizeRs` (`tokenizeRs_ascii`). -/

/-- `Token` from lexer.rs lines 4-17. -/
inductive Token where
  | Selection (s : Str)
  | Not
  | And
  | Or
  | OpeningParenthesis
  | ClosingParenthesis
  | OneOf (s : Str)
  | AllOf (s : Str)
  | OneOfThem
  | AllOfThem
  | End
  deriving DecidableEq, Repr

/-- `Quantifier` from lexer.rs lines 37-40: `1`, or `all` with its original
spelling. -/
inductive Quant where
  | one
  | all (spelling : Str)
  deriving DecidableEq, Repr

/-- `Display for Quantifier` (lexer.rs lines 42-49). -/
def Quant.toStr : Quant → Str
  | .one => ['1']
  | .all s => s

/-- `char::is_ascii_whitespace`. -/
def isWsp (c : Char) : Bool :=
  c = ' ' || c = '\t' || c = '\n' || c = Char.ofNat 12 || c = '\r'

/-- The outcome of one word-boundary event of the tokenizer loop: the new
token list, quantifier state and `of_keyword` flag, and whether the Rust
`continue` in the `of` branch fired (skipping the rest of the iteration,
parenthesis pushes included). -/
structure WordStep where
  tokens : List Token
  q : Option Quant
  ofKw : Bool
  skip : Bool
  deriving Repr

/-- The body of `Lexer::tokenize` for one word event (lexer.rs lines
99-146): the stateful quantifier pre-step, then the keyword match. -/
def processWord (w : Str) (q : Option Quant) (ofKw : Bool)
    (acc : List Token) (isLast : Bool) : WordStep :=
  let lw := lowerStr w
  let pre : List Token × Option Quant × Bool × Bool :=
    match q with
    | some qv =>
      if ¬ofKw ∧ lw = ['o', 'f'] then
        if ¬isLast then (acc, some qv, true, true)
        else (acc ++ [Token.Selection qv.toStr], some qv, true, false)
      else if ¬ofKw then (acc ++ [Token.Selection qv.toStr], none, ofKw, false)
      else (acc, some qv, ofKw, false)
    | none => (acc, none, ofKw, false)
  match pre with
  | (acc1, q1, ofKw1, true) => ⟨acc1, q1, ofKw1, true⟩
  | (acc1, q1, ofKw1, false) =>
    if lw = [] then ⟨acc1, q1, ofKw1, false⟩
    else if lw = ['n', 'o', 't'] then ⟨acc1 ++ [Token.Not], q1, ofKw1, false⟩
    else if lw = ['a', 'n', 'd'] then ⟨acc1 ++ [Token.And], q1, ofKw1, false⟩
    else if lw = ['o', 'r'] then ⟨acc1 ++ [Token.Or], q1, ofKw1, false⟩
    else if lw = ['('] then
      ⟨acc1 ++ [Token.OpeningParenthesis], q1, ofKw1, false⟩
    else if lw = [')'] then
      ⟨acc1 ++ [Token.ClosingParenthesis], q1, ofKw1, false⟩
    else if lw = ['1'] then ⟨acc1, some Quant.one, ofKw1, false⟩
    else if lw = ['a', 'l', 'l'] then ⟨acc1, some (Quant.all w), ofKw1, false⟩
    else if q1.isSome ∧ ofKw1 then
      match q1 with
      | some Quant.one =>
        if lw = ['t', 'h', 'e', 'm'] then
          ⟨acc1 ++ [Token.OneOfThem], none, false, false⟩
        else ⟨acc1 ++ [Token.OneOf w], none, false, false⟩
      | some (Quant.all _) =>
        if lw = ['t', 'h', 'e', 'm'] then
          ⟨acc1 ++ [Token.AllOfThem], none, false, false⟩
        else ⟨acc1 ++ [Token.AllOf w], none, false, false⟩
      | none => ⟨acc1, none, false, false⟩
    else ⟨acc1 ++ [Token.Selection w], q1, ofKw1, false⟩

/-- The character loop of `Lexer::tokenize` (lexer.rs lines 69-153) under
the assumption that character ordinals and byte offsets coincide (every
character one byte): a whitespace or parenthesis character closes the
current word; the last character is special-cased as the Rust `is_last`
logic then does (a trailing word character is included in the word;
nothing after the loop flushes pending state).  This is NOT the whole
story of the Rust function on multi-byte input -- `tokenizeRs` below is
the faithful embedding, and `tokenizeRs_ascii` proves the two agree
whenever every character is ASCII. -/
def tokenizeAux : Str → Str → Option Quant → Bool → List Token → List Token
  | [], _, _, _, acc => acc
  | [c], cur, q, ofKw, acc =>
    if isWsp c then
      if cur = [] then acc
      else (processWord cur q ofKw acc true).tokens
    else if c = '(' then
      let st := processWord cur q ofKw acc true
      if st.skip then st.tokens else st.tokens ++ [Token.OpeningParenthesis]
    else if c = ')' then
      let st := processWord cur q ofKw acc true
      if st.skip then st.tokens else st.tokens ++ [Token.ClosingParenthesis]
    else (processWord (cur ++ [c]) q ofKw acc true).tokens
  | c :: c2 :: rest, cur, q, ofKw, acc =>
    if isWsp c then
      if cur = [] then tokenizeAux (c2 :: rest) [] q ofKw acc
      else
        let st := processWord cur q ofKw acc false
        tokenizeAux (c2 :: rest) [] st.q st.ofKw st.tokens
    else if c = '(' then
      let st := processWord cur q ofKw acc false
      if st.skip then tokenizeAux (c2 :: rest) [] st.q st.ofKw st.tokens
      else tokenizeAux (c2 :: rest) [] st.q st.ofKw
        (st.tokens ++ [Token.OpeningParenthesis])
    else if c = ')' then
      let st := processWord cur q ofKw acc false
      if st.skip then tokenizeAux (c2 :: rest) [] st.q st.ofKw st.tokens
      else tokenizeAux (c2 :: rest) [] st.q st.ofKw
        (st.tokens ++ [Token.ClosingParenthesis])
    else tokenizeAux (c2 :: rest) (cur ++ [c]) q ofKw acc

/-- The single-byte-character reading of `Lexer::tokenize`.  Every
condition string a claim theorem feeds to `Ast::new` is ASCII, where this
provably equals the byte-faithful `tokenizeRs` (`tokenizeRs_ascii`); on
other inputs the Rust function can panic or drop words, which only
`tokenizeRs` models. -/
def tokenize (input : Str) : List Token := tokenizeAux input [] none false []

/-- `char::len_utf8`: the UTF-8 byte width of a character. -/
def utf8Width (c : Char) : Nat :=
  if c.toNat < 128 then 1
  else if c.toNat < 2048 then 2
  else if c.toNat < 65536 then 3
  else 4

/-- `str::len` (lexer.rs line 76): the UTF-8 byte length of the input. -/
def strByteLen (s : Str) : Nat := (s.map utf8Width).sum

/-- Drop `a` leading bytes of a UTF-8 string; `none` when `a` does not
land on a character boundary within the string (the Rust slice would
panic). -/
def byteDrop : Str → Nat → Option Str
  | s, 0 => some s
  | [], _ + 1 => none
  | c :: rest, n + 1 =>
    if utf8Width c ≤ n + 1 then byteDrop rest (n + 1 - utf8Width c) else none

/-- Take `n` leading bytes of a UTF-8 string as characters; `none` when
`n` does not land on a character boundary within the string. -/
def byteTake : Str → Nat → Option Str
  | _, 0 => some []
  | [], _ + 1 => none
  | c :: rest, n + 1 =>
    if utf8Width c ≤ n + 1 then
      match byteTake rest (n + 1 - utf8Width c) with
      | some t => some (c :: t)
      | none => none
    else none

/-- `&input[a..b]` (lexer.rs lines 100-145): byte-range slicing; `none`
models the Rust panic on a range that is reversed, out of bounds or not on
character boundaries. -/
def byteSlice (s : Str) (a b : Nat) : Option Str :=
  if b < a then none
  else
    match byteDrop s a with
    | some rest => byteTake rest (b - a)
    | none => none

/-- The loop of `Lexer::tokenize` (lexer.rs lines 78-153), faithful to the
source's index spaces: `i` counts CHARACTERS (`chars().enumerate()`) while
`is_last` compares it to the BYTE length minus one (line 79) and `start`
and `end`, though derived from `i`, slice the input by BYTES (lines 100,
114).  A slice off a character boundary is the Rust panic, `none`.
Consequently a multi-byte character anywhere makes `is_last` unreachable
(the final word is silently dropped) and a word boundary after a
multi-byte character panics. -/
def tokenizeRsAux (s : Str) (byteLen : Nat) :
    Str → Nat → Nat → Option Quant → Bool → List Token → Option (List Token)
  | [], _, _, _, _, acc => some acc
  | c :: rest, i, start, q, ofKw, acc =>
    let is_last := i == byteLen - 1
    let is_whitespace := isWsp c
    let is_open := c == '('
    let is_close := c == ')'
    if !(is_open || is_close) && !is_whitespace && !is_last then
      tokenizeRsAux s byteLen rest (i + 1) start q ofKw acc
    else if is_whitespace && start == i then
      tokenizeRsAux s byteLen rest (i + 1) (i + 1) q ofKw acc
    else
      let endB :=
        if is_last && !is_whitespace && !(is_open || is_close) then i + 1
        else i
      match byteSlice s start endB with
      | none => none
      | some w =>
        let st := processWord w q ofKw acc is_last
        if st.skip then
          tokenizeRsAux s byteLen rest (i + 1) (i + 1) st.q st.ofKw st.tokens
        else if is_open then
          tokenizeRsAux s byteLen rest (i + 1) (i + 1) st.q st.ofKw
            (st.tokens ++ [Token.OpeningParenthesis])
        else if is_close then
          tokenizeRsAux s byteLen rest (i + 1) (i + 1) st.q st.ofKw
            (st.tokens ++ [Token.ClosingParenthesis])
        else
          tokenizeRsAux s byteLen rest (i + 1) (i + 1) st.q st.ofKw st.tokens

/-- `Lexer::tokenize` (lexer.rs lines 69-155), byte-faithful: `none` is
the panic of a byte slice off a character boundary. -/
def tokenizeRs (input : Str) : Option (List Token) :=
  tokenizeRsAux input (strByteLen input) input 0 0 none false []

theorem utf8Width_ascii (c : Char) (h : c.toNat < 128) : utf8Width c = 1 := by
  simp [utf8Width, h]

theorem strByteLen_ascii (s : Str) (h : ∀ c ∈ s, c.toNat < 128) :
    strByteLen s = s.length := by
  induction s with
  | nil => rfl
  | cons c cs ih =>
    have hc := h c (by simp)
    have hcs : ∀ d ∈ cs, d.toNat < 128 := fun d hd => h d (List.mem_cons_of_mem c hd)
    simp only [strByteLen, List.map_cons, List.sum_cons, List.length_cons] at *
    rw [utf8Width_ascii c hc, ih hcs]
    omega

theorem byteDrop_ascii (s : Str) (h : ∀ c ∈ s, c.toNat < 128) :
    ∀ a ≤ s.length, byteDrop s a = some (s.drop a) := by
  induction s with
  | nil =>
    intro a ha
    have : a = 0 := Nat.le_zero.mp (by simpa using ha)
    subst this
    rfl
  | cons c cs ih =>
    intro a ha
    cases a with
    | zero => rfl
    | succ n =>
      have hc := h c (by simp)
      have hcs : ∀ d ∈ cs, d.toNat < 128 := fun d hd => h d (List.mem_cons_of_mem c hd)
      rw [byteDrop, utf8Width_ascii c hc, if_pos (by omega)]
      simp only [Nat.add_sub_cancel]
      rw [ih hcs n (by simpa using Nat.succ_le_succ_iff.mp ha)]
      rfl

theorem byteTake_ascii (s : Str) (h : ∀ c ∈ s, c.toNat < 128) :
    ∀ n ≤ s.length, byteTake s n = some (s.take n) := by
  induction s with
  | nil =>
    intro n hn
    have : n = 0 := Nat.le_zero.mp (by simpa using hn)
    subst this
    rfl
  | cons c cs ih =>
    intro n hn
    cases n with
    | zero => rfl
    | succ m =>
      have hc := h c (by simp)
      have hcs : ∀ d ∈ cs, d.toNat < 128 := fun d hd => h d (List.mem_cons_of_mem c hd)
      rw [byteTake, utf8Width_ascii c hc, if_pos (by omega)]
      simp only [Nat.add_sub_cancel]
      rw [ih hcs m (by simpa using Nat.succ_le_succ_iff.mp hn)]
      rfl

theorem byteSlice_ascii (s : Str) (h : ∀ c ∈ s, c.toNat < 128) (a b : Nat)
    (hab : a ≤ b) (hb : b ≤ s.length) :
    byteSlice s a b = some ((s.drop a).take (b - a)) := by
  rw [byteSlice, if_neg (by omega)]
  rw [byteDrop_ascii s h a (le_trans hab hb)]
  exact byteTake_ascii (s.drop a)
    (fun c hc => h c (List.mem_of_mem_drop hc)) (b - a)
    (by simp only [List.length_drop]; omega)

theorem wsp_not_paren (c : Char) (h : isWsp c = true) :
    (c == '(') = false ∧ (c == ')') = false := by
  simp only [isWsp, Bool.or_eq_true, decide_eq_true_eq] at h
  rcases h with (((h | h) | h) | h) | h <;> subst h <;> exact ⟨rfl, rfl⟩

theorem tokenizeRsAux_continue (s : Str) (bl : Nat) (c : Char) (rest : Str)
    (i start : Nat) (q : Option Quant) (ofKw : Bool) (acc : List Token)
    (hop : (c == '(') = false) (hcl : (c == ')') = false)
    (hws : isWsp c = false) (hlast : (i == bl - 1) = false) :
    tokenizeRsAux s bl (c :: rest) i start q ofKw acc =
      tokenizeRsAux s bl rest (i + 1) start q ofKw acc := by
  simp only [tokenizeRsAux, hop, hcl, hws, hlast]
  simp

theorem tokenizeRsAux_ws_empty (s : Str) (bl : Nat) (c : Char) (rest : Str)
    (i start : Nat) (q : Option Quant) (ofKw : Bool) (acc : List Token)
    (hws : isWsp c = true) (hsi : (start == i) = true) :
    tokenizeRsAux s bl (c :: rest) i start q ofKw acc =
      tokenizeRsAux s bl rest (i + 1) (i + 1) q ofKw acc := by
  obtain ⟨hop, hcl⟩ := wsp_not_paren c hws
  simp only [tokenizeRsAux, hop, hcl, hws, hsi]
  simp

theorem tokenizeRsAux_ws_flush (s : Str) (bl : Nat) (c : Char) (rest : Str)
    (i start : Nat) (q : Option Quant) (ofKw : Bool) (acc : List Token)
    (hws : isWsp c = true) (hsi : (start == i) = false) (w : Str)
    (hsl : byteSlice s start i = some w) :
    tokenizeRsAux s bl (c :: rest) i start q ofKw acc =
      tokenizeRsAux s bl rest (i + 1) (i + 1)
        (processWord w q ofKw acc (i == bl - 1)).q
        (processWord w q ofKw acc (i == bl - 1)).ofKw
        (processWord w q ofKw acc (i == bl - 1)).tokens := by
  obtain ⟨hop, hcl⟩ := wsp_not_paren c hws
  simp only [tokenizeRsAux, hop, hcl, hws, hsi]
  simp only [Bool.or_false, Bool.false_or, Bool.not_true, Bool.not_false,
    Bool.and_false, Bool.false_and, Bool.and_true, Bool.true_and,
    Bool.false_eq_true, if_false, ite_false, ite_true]
  rw [hsl]
  cases hsk : (processWord w q ofKw acc (i == bl - 1)).skip <;> simp [hsk]

theorem tokenizeRsAux_open (s : Str) (bl : Nat) (c : Char) (rest : Str)
    (i start : Nat) (q : Option Quant) (ofKw : Bool) (acc : List Token)
    (hc : c = '(') (w : Str) (hsl : byteSlice s start i = some w) :
    tokenizeRsAux s bl (c :: rest) i start q ofKw acc =
      (if (processWord w q ofKw acc (i == bl - 1)).skip then
        tokenizeRsAux s bl rest (i + 1) (i + 1)
          (processWord w q ofKw acc (i == bl - 1)).q
          (processWord w q ofKw acc (i == bl - 1)).ofKw
          (processWord w q ofKw acc (i == bl - 1)).tokens
      else
        tokenizeRsAux s bl rest (i + 1) (i + 1)
          (processWord w q ofKw acc (i == bl - 1)).q
          (processWord w q ofKw acc (i == bl - 1)).ofKw
          ((processWord w q ofKw acc (i == bl - 1)).tokens ++
            [Token.OpeningParenthesis])) := by
  subst hc
  simp only [tokenizeRsAux]
  simp only [show (('(' : Char) == '(') = true from rfl,
    show isWsp '(' = false from rfl, Bool.true_or, Bool.not_true,
    Bool.false_and, Bool.and_false, Bool.false_eq_true, if_false, ite_false]
  rw [hsl]
  simp

theorem tokenizeRsAux_close (s : Str) (bl : Nat) (c : Char) (rest : Str)
    (i start : Nat) (q : Option Quant) (ofKw : Bool) (acc : List Token)
    (hc : c = ')') (w : Str) (hsl : byteSlice s start i = some w) :
    tokenizeRsAux s bl (c :: rest) i start q ofKw acc =
      (if (processWord w q ofKw acc (i == bl - 1)).skip then
        tokenizeRsAux s bl rest (i + 1) (i + 1)
          (processWord w q ofKw acc (i == bl - 1)).q
          (processWord w q ofKw acc (i == bl - 1)).ofKw
          (processWord w q ofKw acc (i == bl - 1)).tokens
      else
        tokenizeRsAux s bl rest (i + 1) (i + 1)
          (processWord w q ofKw acc (i == bl - 1)).q
          (processWord w q ofKw acc (i == bl - 1)).ofKw
          ((processWord w q ofKw acc (i == bl - 1)).tokens ++
            [Token.ClosingParenthesis])) := by
  subst hc
  simp only [tokenizeRsAux]
  simp only [show ((')' : Char) == '(') = false from rfl,
    show ((')' : Char) == ')') = true from rfl,
    show isWsp ')' = false from rfl, Bool.or_true, Bool.not_true,
    Bool.false_and, Bool.and_false, Bool.false_eq_true, if_false, ite_false]
  rw [hsl]
  simp

theorem tokenizeRsAux_last_flush (s : Str) (bl : Nat) (c : Char) (rest : Str)
    (i start : Nat) (q : Option Quant) (ofKw : Bool) (acc : List Token)
    (hop : (c == '(') = false) (hcl : (c == ')') = false)
    (hws : isWsp c = false) (hlast : (i == bl - 1) = true) (w : Str)
    (hsl : byteSlice s start (i + 1) = some w) :
    tokenizeRsAux s bl (c :: rest) i start q ofKw acc =
      tokenizeRsAux s bl rest (i + 1) (i + 1)
        (processWord w q ofKw acc true).q
        (processWord w q ofKw acc true).ofKw
        (processWord w q ofKw acc true).tokens := by
  simp only [tokenizeRsAux, hop, hcl, hws, hlast]
  simp only [Bool.or_false, Bool.false_or, Bool.not_true, Bool.not_false,
    Bool.and_false, Bool.false_and, Bool.and_true, Bool.true_and,
    Bool.and_self, Bool.false_eq_true, if_false, ite_false, ite_true]
  rw [hsl]
  cases hsk : (processWord w q ofKw acc true).skip <;> simp [hsk]

theorem tokenizeRsAux_ascii (s : Str) (hA : ∀ c ∈ s, c.toNat < 128) :
    ∀ (t pre : Str) (q : Option Quant) (ofKw : Bool) (acc : List Token)
      (start : Nat), s = pre ++ t → start ≤ pre.length →
      tokenizeRsAux s s.length t pre.length start q ofKw acc =
        some (tokenizeAux t (pre.drop start) q ofKw acc) := by
  intro t
  induction t with
  | nil => intro pre q ofKw acc start hs hstart; rfl
  | cons c rest ih =>
    intro pre q ofKw acc start hs hstart
    have hpre_le : pre.length ≤ s.length := by
      rw [hs, List.length_append]; omega
    have hslen : s.length = pre.length + rest.length + 1 := by
      rw [hs, List.length_append, List.length_cons]
      omega
    have hcur : byteSlice s start pre.length = some (pre.drop start) := by
      rw [byteSlice_ascii s hA start pre.length hstart hpre_le]
      congr 1
      conv_lhs => rw [hs]
      rw [List.drop_append_of_le_length hstart]
      exact List.take_left' (by rw [List.length_drop])
    cases rest with
    | nil =>
      have hlast : (pre.length == s.length - 1) = true := by
        simp [hslen]
      have hsall : byteSlice s start (pre.length + 1) =
          some (pre.drop start ++ [c]) := by
        rw [byteSlice_ascii s hA start (pre.length + 1) (by omega) (by omega)]
        congr 1
        conv_lhs => rw [hs]
        rw [List.drop_append_of_le_length hstart]
        apply List.take_of_length_le
        simp only [List.length_append, List.length_drop, List.length_cons,
          List.length_nil]
        omega
      by_cases hws : isWsp c = true
      · by_cases hsi : start = pre.length
        · have hsib : (start == pre.length) = true := by simp [hsi]
          rw [tokenizeRsAux_ws_empty s s.length c [] pre.length start q ofKw
            acc hws hsib]
          have hcur0 : pre.drop start = [] := by rw [hsi, List.drop_length]
          rw [hcur0, tokenizeAux, if_pos hws, if_pos rfl]
          rfl
        · have hsib : (start == pre.length) = false := by simp [hsi]
          have hcurne : pre.drop start ≠ [] := by
            intro h
            have := congrArg List.length h
            simp only [List.length_drop, List.length_nil] at this
            omega
          rw [tokenizeRsAux_ws_flush s s.length c [] pre.length start q ofKw
            acc hws hsib (pre.drop start) hcur, hlast]
          rw [tokenizeAux, if_pos hws, if_neg hcurne]
          rfl
      · have hwsb : isWsp c = false := by simpa using hws
        by_cases hopc : c = '('
        · rw [tokenizeRsAux_open s s.length c [] pre.length start q ofKw acc
            hopc (pre.drop start) hcur, hlast]
          rw [tokenizeAux, if_neg hws, if_pos hopc]
          cases hsk : (processWord (pre.drop start) q ofKw acc true).skip <;>
            simp only [hsk, if_true, if_false, Bool.false_eq_true,
              ite_false, ite_true] <;> rfl
        · by_cases hclc : c = ')'
          · rw [tokenizeRsAux_close s s.length c [] pre.length start q ofKw acc
              hclc (pre.drop start) hcur, hlast]
            rw [tokenizeAux, if_neg hws, if_neg hopc, if_pos hclc]
            cases hsk : (processWord (pre.drop start) q ofKw acc true).skip <;>
              simp only [hsk, if_true, if_false, Bool.false_eq_true,
                ite_false, ite_true] <;> rfl
          · have hopb : (c == '(') = false := by simp [hopc]
            have hclb : (c == ')') = false := by simp [hclc]
            rw [tokenizeRsAux_last_flush s s.length c [] pre.length start q
              ofKw acc hopb hclb hwsb hlast (pre.drop start ++ [c]) hsall]
            rw [tokenizeAux, if_neg hws, if_neg hopc, if_neg hclc]
            rfl
    | cons c2 rest2 =>
      have hlast : (pre.length == s.length - 1) = false := by
        simp only [hslen, List.length_cons]
        simp
      have hs2 : s = (pre ++ [c]) ++ c2 :: rest2 := by
        rw [hs]; simp
      have hlen2 : (pre ++ [c]).length = pre.length + 1 := by simp
      have hdrop2 : (pre ++ [c]).drop start = pre.drop start ++ [c] :=
        List.drop_append_of_le_length hstart
      by_cases hws : isWsp c = true
      · by_cases hsi : start = pre.length
        · have hsib : (start == pre.length) = true := by simp [hsi]
          rw [tokenizeRsAux_ws_empty s s.length c (c2 :: rest2) pre.length
            start q ofKw acc hws hsib]
          have hcur0 : pre.drop start = [] := by rw [hsi, List.drop_length]
          rw [hcur0, tokenizeAux, if_pos hws, if_pos rfl]
          have h2 := ih (pre ++ [c]) q ofKw acc (pre.length + 1) hs2
            (by simp)
          rw [hlen2] at h2
          rw [show (pre ++ [c]).drop (pre.length + 1) = [] from by
            apply List.drop_eq_nil_of_le
            simp] at h2
          exact h2
        · have hsib : (start == pre.length) = false := by simp [hsi]
          have hcurne : pre.drop start ≠ [] := by
            intro h
            have := congrArg List.length h
            simp only [List.length_drop, List.length_nil] at this
            omega
          rw [tokenizeRsAux_ws_flush s s.length c (c2 :: rest2) pre.length
            start q ofKw acc hws hsib (pre.drop start) hcur, hlast]
          rw [tokenizeAux, if_pos hws, if_neg hcurne]
          have h2 := ih (pre ++ [c])
            (processWord (pre.drop start) q ofKw acc false).q
            (processWord (pre.drop start) q ofKw acc false).ofKw
            (processWord (pre.drop start) q ofKw acc false).tokens
            (pre.length + 1) hs2 (by simp)
          rw [hlen2] at h2
          rw [show (pre ++ [c]).drop (pre.length + 1) = [] from by
            apply List.drop_eq_nil_of_le
            simp] at h2
          exact h2
      · have hwsb : isWsp c = false := by simpa using hws
        by_cases hopc : c = '('
        · rw [tokenizeRsAux_open s s.length c (c2 :: rest2) pre.length start q
            ofKw acc hopc (pre.drop start) hcur, hlast]
          rw [tokenizeAux, if_neg hws, if_pos hopc]
          cases hsk : (processWord (pre.drop start) q ofKw acc false).skip <;>
            simp only [hsk, if_true, if_false, Bool.false_eq_true,
              ite_false, ite_true]
          · have h2 := ih (pre ++ [c])
              (processWord (pre.drop start) q ofKw acc false).q
              (processWord (pre.drop start) q ofKw acc false).ofKw
              ((processWord (pre.drop start) q ofKw acc false).tokens ++
                [Token.OpeningParenthesis])
              (pre.length + 1) hs2 (by simp)
            rw [hlen2] at h2
            rw [show (pre ++ [c]).drop (pre.length + 1) = [] from by
              apply List.drop_eq_nil_of_le
              simp] at h2
            exact h2
          · have h2 := ih (pre ++ [c])
              (processWord (pre.drop start) q ofKw acc false).q
              (processWord (pre.drop start) q ofKw acc false).ofKw
              (processWord (pre.drop start) q ofKw acc false).tokens
              (pre.length + 1) hs2 (by simp)
            rw [hlen2] at h2
            rw [show (pre ++ [c]).drop (pre.length + 1) = [] from by
              apply List.drop_eq_nil_of_le
              simp] at h2
            exact h2
        · by_cases hclc : c = ')'
          · rw [tokenizeRsAux_close s s.length c (c2 :: rest2) pre.length
              start q ofKw acc hclc (pre.drop start) hcur, hlast]
            rw [tokenizeAux, if_neg hws, if_neg hopc, if_pos hclc]
            cases hsk : (processWord (pre.drop start) q ofKw acc false).skip <;>
              simp only [hsk, if_true, if_false, Bool.false_eq_true,
                ite_false, ite_true]
            · have h2 := ih (pre ++ [c])
                (processWord (pre.drop start) q ofKw acc false).q
                (processWord (pre.drop start) q ofKw acc false).ofKw
                ((processWord (pre.drop start) q ofKw acc false).tokens ++
                  [Token.ClosingParenthesis])
                (pre.length + 1) hs2 (by simp)
              rw [hlen2] at h2
              rw [show (pre ++ [c]).drop (pre.length + 1) = [] from by
                apply List.drop_eq_nil_of_le
                simp] at h2
              exact h2
            · have h2 := ih (pre ++ [c])
                (processWord (pre.drop start) q ofKw acc false).q
                (processWord (pre.drop start) q ofKw acc false).ofKw
                (processWord (pre.drop start) q ofKw acc false).tokens
                (pre.length + 1) hs2 (by simp)
              rw [hlen2] at h2
              rw [show (pre ++ [c]).drop (pre.length + 1) = [] from by
                apply List.drop_eq_nil_of_le
                simp] at h2
              exact h2
          · have hopb : (c == '(') = false := by simp [hopc]
            have hclb : (c == ')') = false := by simp [hclc]
            rw [tokenizeRsAux_continue s s.length c (c2 :: rest2) pre.length
              start q ofKw acc hopb hclb hwsb hlast]
            rw [tokenizeAux, if_neg hws, if_neg hopc, if_neg hclc]
            have h2 := ih (pre ++ [c]) q ofKw acc start hs2
              (by simp; omega)
            rw [hlen2, hdrop2] at h2
            exact h2

theorem tokenizeRs_ascii (s : Str) (hA : ∀ c ∈ s, c.toNat < 128) :
    tokenizeRs s = some (tokenize s) := by
  rw [tokenizeRs, strByteLen_ascii s hA, tokenize]
  have := tokenizeRsAux_ascii s hA s [] none false [] 0 rfl (by simp)
  simpa using this

/-! ## YAML values, errors, and the condition parser -/

/-- The payload of a `serde_yml` number: signed, unsigned or float
(value.rs lines 132-140 dispatch on exactly these three cases). -/
inductive YNum where
  | i (v : Int)
  | u (v : Nat)
  | f (v : Rat)
  deriving DecidableEq, Repr

/-- `serde_yml::Value`, restricted to the variants the engine consumes
(`Tagged` values only ever reach catch-all error arms). -/
inductive Yaml where
  | NullY
  | BoolY (b : Bool)
  | NumY (n : YNum)
  | StrY (s : Str)
  | SeqY (l : List Yaml)
  | MapY (m : List (Yaml × Yaml))

/-- `serde_yml::Value::is_mapping`. -/
def Yaml.isMapping : Yaml → Bool
  | .MapY _ => true
  | _ => false

/-- `SelectionError` from src/src/error.rs lines 54-67.  The Rust code
stores `format!("{:?}", value)` in `InvalidKeywordSelection`; the model
carries the value itself. -/
inductive SelectionError where
  | SelectionContainsNoFields
  | MixedKeywordAndFieldlist
  | InvalidSelectionType
  | InvalidKeywordSelection (v : Yaml)

/-- `ParserError` from src/src/error.rs lines 1-52.  String renderings of
carried values (`format!`, `to_string`) are modelled by carrying the value
itself; `RegexParsing` carries the offending pattern. -/
inductive ParserError where
  | ConflictingModifiers (a b : Str)
  | UnknownModifier (s : Str)
  | Utf16WithoutBase64
  | AmbiguousUtf16Modifier (s : Str)
  | EmptyValues (name : Str)
  | RegexParsing (pattern : Str)
  | StandaloneViolation (s : Str)
  | IPParsing (addr : Str) (msg : Str)
  | InvalidYAML (v : Yaml)
  | MissingClosingParenthesis
  | UnexpectedToken (t : Token)
  | InvalidOperator (t : Token)
  | UndefinedIdentifiers (l : List Str)
  | SelectionParsingError (name : Str) (e : SelectionError)
  | InvalidFieldName (v : Yaml)
  | InvalidValueForStringModifier (v : FieldValue)

/-- `Ast` from src/src/detection/ast.rs lines 33-42. -/
inductive Ast where
  | Selection (s : Str)
  | OneOf (s : Str)
  | OneOfThem
  | AllOf (s : Str)
  | AllOfThem
  | Not (a : Ast)
  | And (l r : Ast)
  | Or (l r : Ast)
  deriving DecidableEq, Repr

mutual

/-- `Ast::parse_token_stream` (ast.rs lines 56-101), head-token part.  The
lexer state is the remaining token list (`next` pops the head, `End` when
exhausted); the fuel argument only serves termination and strictly exceeds
the call depth whenever it exceeds the token count, since every recursive
call first consumes a token. -/
def parseTS : Nat → List Token → Nat → Except ParserError (Ast × List Token)
  | 0, _, _ => .error (.UnexpectedToken Token.End)
  | fuel + 1, tokens, minBp =>
    match tokens with
    | Token.Selection s :: rest => parseLoop fuel (Ast.Selection s) rest minBp
    | Token.OneOf s :: rest => parseLoop fuel (Ast.OneOf s) rest minBp
    | Token.OneOfThem :: rest => parseLoop fuel Ast.OneOfThem rest minBp
    | Token.AllOf s :: rest => parseLoop fuel (Ast.AllOf s) rest minBp
    | Token.AllOfThem :: rest => parseLoop fuel Ast.AllOfThem rest minBp
    | Token.OpeningParenthesis :: rest =>
      (match parseTS fuel rest 0 with
       | .error e => .error e
       | .ok (left, rest2) =>
         match rest2 with
         | Token.ClosingParenthesis :: rest3 => parseLoop fuel left rest3 minBp
         | _ => .error .MissingClosingParenthesis)
    | Token.Not :: rest =>
      (match parseTS fuel rest 3 with
       | .error e => .error e
       | .ok (right, rest2) => parseLoop fuel (Ast.Not right) rest2 minBp)
    | t :: _ => .error (.UnexpectedToken t)
    | [] => .error (.UnexpectedToken Token.End)

/-- The infix loop of `Ast::parse_token_stream` (ast.rs lines 77-98):
peek an operator, break on `End`/`)` or when its binding power is below
`min_bp`, otherwise consume it, parse the right operand with the operator's
own binding power (hence the right association) and continue. -/
def parseLoop : Nat → Ast → List Token → Nat →
    Except ParserError (Ast × List Token)
  | 0, _, _, _ => .error (.UnexpectedToken Token.End)
  | fuel + 1, left, tokens, minBp =>
    match tokens with
    | [] => .ok (left, tokens)
    | Token.End :: _ => .ok (left, tokens)
    | Token.ClosingParenthesis :: _ => .ok (left, tokens)
    | Token.And :: rest =>
      if 2 < minBp then .ok (left, tokens)
      else
        match parseTS fuel rest 2 with
        | .error e => .error e
        | .ok (right, rest2) => parseLoop fuel (Ast.And left right) rest2 minBp
    | Token.Or :: rest =>
      if 1 < minBp then .ok (left, tokens)
      else
        match parseTS fuel rest 1 with
        | .error e => .error e
        | .ok (right, rest2) => parseLoop fuel (Ast.Or left right) rest2 minBp
    | t :: _ => .error (.InvalidOperator t)

end

/-- `Ast::new` (ast.rs lines 51-54): tokenize, then parse with
`min_bp = 0`; trailing tokens after the parsed expression are ignored
(the loop broke on them). -/
def Ast.new (input : Str) : Except ParserError Ast :=
  match parseTS ((tokenize input).length + 1) (tokenize input) 0 with
  | .error e => .error e
  | .ok (ast, _) => .ok ast

/-- Counterexample to C4 as stated: the condition `a and b and c` parses to
the right-associated `And(a, And(b, c))`, which differs from the claimed
left-associated `And(And(a, b), c)` (the Pratt loop recurses with
`min_bp = bp` and only breaks on `bp < min_bp`, so equal binding powers
recurse to the right). -/
theorem c4_counterexample :
    Ast.new
      ['a', ' ', 'a', 'n', 'd', ' ', 'b', ' ', 'a', 'n', 'd', ' ', 'c'] =
      .ok (Ast.And (Ast.Selection ['a'])
        (Ast.And (Ast.Selection ['b']) (Ast.Selection ['c']))) ∧
    Ast.And (Ast.Selection ['a'])
        (Ast.And (Ast.Selection ['b']) (Ast.Selection ['c'])) ≠
      Ast.And (Ast.And (Ast.Selection ['a']) (Ast.Selection ['b']))
        (Ast.Selection ['c']) := by
  exact ⟨rfl, by decide⟩

/-- C4 amended: chains of same-precedence infix operators are
right-associative: `a and b and c` yields `And(a, And(b, c))` and
`a or b or c` yields `Or(a, Or(b, c))` (token-level statement for arbitrary
selection names, with the same fuel `Ast::new` uses for five tokens). -/
theorem c4_amended (a b c : Str) :
    parseTS 6 [Token.Selection a, Token.And, Token.Selection b, Token.And,
        Token.Selection c] 0 =
      .ok (Ast.And (Ast.Selection a)
        (Ast.And (Ast.Selection b) (Ast.Selection c)), []) ∧
    parseTS 6 [Token.Selection a, Token.Or, Token.Selection b, Token.Or,
        Token.Selection c] 0 =
      .ok (Ast.Or (Ast.Selection a)
        (Ast.Or (Ast.Selection b) (Ast.Selection c)), []) :=
  ⟨rfl, rfl⟩

/-! ## Claim C8: quantifier collapse in the lexer -/

/-- The word-level view of the tokenizer: one `processWord` step per word,
the last word flagged `isLast`; nothing flushes pending state afterwards
(this mirrors the absence of any post-loop flush in `Lexer::tokenize`). -/
def wordTokenize : List Str → Option Quant → Bool → List Token → List Token
  | [], _, _, acc => acc
  | [w], q, ofKw, acc => (processWord w q ofKw acc true).tokens
  | w :: w2 :: ws, q, ofKw, acc =>
    let st := processWord w q ofKw acc false
    wordTokenize (w2 :: ws) st.q st.ofKw st.tokens

/-- Words joined by single spaces. -/
def joinWords : List Str → Str
  | [] => []
  | [w] => w
  | w :: w2 :: ws => w ++ ' ' :: joinWords (w2 :: ws)

/-- A word of the condition language: non-empty, no whitespace, no
parentheses. -/
def validWord (w : Str) : Bool :=
  !w.isEmpty && w.all fun c => !isWsp c && !(c = '(' : Bool) && !(c = ')' : Bool)

/-- Does this word (case-insensitively) start a quantifier? -/
def isQuantWord (w : Str) : Bool :=
  lowerStr w = ['1'] || lowerStr w = ['a', 'l', 'l']

/-- The quantifier state a quantifier word sets (lexer.rs lines 121-122). -/
def quantOf (w : Str) : Quant :=
  if lowerStr w = ['1'] then Quant.one else Quant.all w

/-- The token a plain word produces when no quantifier interferes. -/
def keywordToken (w : Str) : Token :=
  if lowerStr w = ['n', 'o', 't'] then Token.Not
  else if lowerStr w = ['a', 'n', 'd'] then Token.And
  else if lowerStr w = ['o', 'r'] then Token.Or
  else Token.Selection w

/-- The token the collapse of a pending quantifier emits. -/
def pend : Option Quant → List Token
  | none => []
  | some qv => [Token.Selection qv.toStr]

theorem lowerStr_ne_nil (w : Str) (hw : w ≠ []) : lowerStr w ≠ [] := by
  cases w with
  | nil => exact absurd rfl hw
  | cons c cs => simp [lowerStr]

theorem quantOf_toStr (w : Str) (hq : isQuantWord w = true) :
    (quantOf w).toStr = w := by
  unfold isQuantWord at hq
  unfold quantOf
  by_cases h1 : lowerStr w = ['1']
  · rw [if_pos h1, Quant.toStr]
    cases w with
    | nil => simp [lowerStr] at h1
    | cons c cs =>
      cases cs with
      | cons d ds => simp [lowerStr] at h1
      | nil =>
        simp only [lowerStr, List.map_cons, List.map_nil, List.cons.injEq,
          and_true] at h1
        have : c = '1' :=
          (toLower_eq_special c '1' (by decide) (by decide)).mp h1
        rw [this]
  · rw [if_neg h1, Quant.toStr]

/-- With `of_keyword` clear and the word neither empty, a parenthesis nor
(when a quantifier is pending) the word `of`, one tokenizer word step
collapses any pending quantifier into a `Selection` token carrying its
spelling and then processes the word normally: a quantifier word just sets
the pending state, any other word appends its keyword/selection token. -/
theorem processWord_char (w : Str) (q : Option Quant) (acc : List Token)
    (isLast : Bool) (hw : w ≠ []) (hp1 : lowerStr w ≠ ['('])
    (hp2 : lowerStr w ≠ [')'])
    (hof : ∀ qv, q = some qv → lowerStr w ≠ ['o', 'f']) :
    processWord w q false acc isLast =
      (if isQuantWord w then
        ⟨acc ++ pend q, some (quantOf w), false, false⟩
      else ⟨acc ++ pend q ++ [keywordToken w], none, false, false⟩ : WordStep) := by
  have hnil : lowerStr w ≠ [] := lowerStr_ne_nil w hw
  unfold processWord
  cases q with
  | none =>
    simp only [pend, List.append_nil]
    by_cases h1 : lowerStr w = ['1']
    · simp [h1, isQuantWord, quantOf, hnil]
    · by_cases hall : lowerStr w = ['a', 'l', 'l']
      · simp [h1, hall, isQuantWord, quantOf, hnil]
      · have hqw : isQuantWord w = false := by
          simp [isQuantWord, h1, hall]
        simp only [hqw, Bool.false_eq_true, if_false]
        by_cases hnot : lowerStr w = ['n', 'o', 't']
        · simp [hnot, keywordToken, hnil]
        · by_cases hand : lowerStr w = ['a', 'n', 'd']
          · simp [hnot, hand, keywordToken, hnil]
          · by_cases hor : lowerStr w = ['o', 'r']
            · simp [hnot, hand, hor, keywordToken, hnil]
            · simp [hnot, hand, hor, h1, hall, hp1, hp2, keywordToken, hnil]
  | some qv =>
    have hofv := hof qv rfl
    simp only [not_false_eq_true, true_and, hofv, if_neg,
      false_and, if_false, pend]
    by_cases h1 : lowerStr w = ['1']
    · simp [h1, hofv, isQuantWord, quantOf, hnil]
    · by_cases hall : lowerStr w = ['a', 'l', 'l']
      · simp [h1, hall, hofv, isQuantWord, quantOf, hnil]
      · have hqw : isQuantWord w = false := by
          simp [isQuantWord, h1, hall]
        simp only [hqw, Bool.false_eq_true, if_false]
        by_cases hnot : lowerStr w = ['n', 'o', 't']
        · simp [hnot, hofv, keywordToken, hnil]
        · by_cases hand : lowerStr w = ['a', 'n', 'd']
          · simp [hnot, hand, hofv, keywordToken, hnil]
          · by_cases hor : lowerStr w = ['o', 'r']
            · simp [hnot, hand, hor, hofv, keywordToken, hnil]
            · simp [hnot, hand, hor, h1, hall, hp1, hp2, hofv, keywordToken,
                hnil]

/-- A word character neither closes the word nor is special. -/
def wordChar (c : Char) : Bool :=
  !isWsp c && !(c = '(' : Bool) && !(c = ')' : Bool)

theorem tokenizeAux_word_chars (w : Str) (rest : Str) (cur : Str)
    (q : Option Quant) (ofKw : Bool) (acc : List Token)
    (hw : ∀ c ∈ w, wordChar c = true) (hr : rest ≠ []) :
    tokenizeAux (w ++ rest) cur q ofKw acc =
      tokenizeAux rest (cur ++ w) q ofKw acc := by
  induction w generalizing cur with
  | nil => simp
  | cons c cs ih =>
    have hc : wordChar c = true := hw c (by simp)
    have hcs : ∀ d ∈ cs, wordChar d = true := fun d hd => hw d (by simp [hd])
    simp only [wordChar, Bool.and_eq_true, Bool.not_eq_true'] at hc
    cases hrest : cs ++ rest with
    | nil =>
      rcases List.append_eq_nil.mp hrest with ⟨-, h2⟩
      exact absurd h2 hr
    | cons c2 rest2 =>
      have : tokenizeAux ((c :: cs) ++ rest) cur q ofKw acc =
          tokenizeAux (cs ++ rest) (cur ++ [c]) q ofKw acc := by
        rw [List.cons_append, hrest, tokenizeAux]
        rw [if_neg (by simp [hc.1.1]), if_neg (of_decide_eq_false hc.1.2),
          if_neg (of_decide_eq_false hc.2)]
      rw [this, ih (cur ++ [c]) hcs]
      simp

theorem tokenizeAux_last_word (w : Str) (cur : Str) (q : Option Quant)
    (ofKw : Bool) (acc : List Token) (hw : ∀ c ∈ w, wordChar c = true)
    (hne : w ≠ []) :
    tokenizeAux w cur q ofKw acc =
      (processWord (cur ++ w) q ofKw acc true).tokens := by
  induction w generalizing cur with
  | nil => exact absurd rfl hne
  | cons c cs ih =>
    have hc : wordChar c = true := hw c (by simp)
    have hcs : ∀ d ∈ cs, wordChar d = true := fun d hd => hw d (by simp [hd])
    simp only [wordChar, Bool.and_eq_true, Bool.not_eq_true'] at hc
    cases cs with
    | nil =>
      rw [tokenizeAux]
      rw [if_neg (by simp [hc.1.1]), if_neg (of_decide_eq_false hc.1.2),
        if_neg (of_decide_eq_false hc.2)]
    | cons c2 cs2 =>
      rw [tokenizeAux]
      rw [if_neg (by simp [hc.1.1]), if_neg (of_decide_eq_false hc.1.2),
        if_neg (of_decide_eq_false hc.2)]
      rw [ih (cur ++ [c]) hcs (by simp)]
      simp

theorem joinWords_ne_nil (w : Str) (ws : List Str) (hw : w ≠ []) :
    joinWords (w :: ws) ≠ [] := by
  cases ws with
  | nil => simpa [joinWords] using hw
  | cons w2 ws2 =>
    rw [joinWords]
    cases w with
    | nil => exact absurd rfl hw
    | cons c cs => simp

/-- The scanner refinement: tokenizing the space-joined words is running
the word automaton over the words. -/
theorem tokenizeAux_joinWords (ws : List Str) (q : Option Quant)
    (ofKw : Bool) (acc : List Token)
    (hv : ∀ w ∈ ws, validWord w = true) :
    tokenizeAux (joinWords ws) [] q ofKw acc = wordTokenize ws q ofKw acc := by
  induction ws generalizing q ofKw acc with
  | nil => rfl
  | cons w ws ih =>
    have hvw : validWord w = true := hv w (by simp)
    have hvs : ∀ u ∈ ws, validWord u = true := fun u hu => hv u (by simp [hu])
    have hwchars : ∀ c ∈ w, wordChar c = true := by
      intro c hc
      have := hvw
      simp only [validWord, Bool.and_eq_true, List.all_eq_true] at this
      simp only [wordChar, Bool.and_eq_true]
      exact this.2 c hc
    have hwne : w ≠ [] := by
      intro h
      rw [h] at hvw
      simp [validWord] at hvw
    cases ws with
    | nil =>
      rw [joinWords, wordTokenize]
      exact (tokenizeAux_last_word w [] q ofKw acc hwchars hwne).trans (by simp)
    | cons w2 ws2 =>
      have hw2ne : w2 ≠ [] := by
        have := hvs w2 (by simp)
        intro h
        rw [h] at this
        simp [validWord] at this
      have hjoin_ne : joinWords (w2 :: ws2) ≠ [] := joinWords_ne_nil w2 ws2 hw2ne
      rw [joinWords, wordTokenize]
      rw [tokenizeAux_word_chars w (' ' :: joinWords (w2 :: ws2)) [] q ofKw acc
        hwchars (by simp)]
      have hstep : tokenizeAux (' ' :: joinWords (w2 :: ws2)) ([] ++ w) q ofKw acc =
          tokenizeAux (joinWords (w2 :: ws2)) []
            (processWord w q ofKw acc false).q
            (processWord w q ofKw acc false).ofKw
            (processWord w q ofKw acc false).tokens := by
        cases hj : joinWords (w2 :: ws2) with
        | nil => exact absurd hj hjoin_ne
        | cons d ds =>
          rw [tokenizeAux]
          simp only [List.nil_append]
          rw [if_pos (by decide), if_neg (by simpa using hwne)]
      rw [hstep, ih _ _ _ hvs]

/-- No occurrence of a quantifier word (`1`/`all`) is followed by the word
`of` (the scope of claim C8). -/
def noQuantOf : List Str → Bool
  | [] => true
  | [_] => true
  | w :: w2 :: ws =>
    (!isQuantWord w || !(lowerStr w2 = ['o', 'f'] : Bool)) && noQuantOf (w2 :: ws)

/-- The token stream claim C8 describes for such inputs, with the one
amendment: every word maps to its keyword or `Selection` token — a
quantifier word in non-final position collapses to a plain `Selection` —
but a quantifier word that is the *final* word is silently dropped. -/
def specTokens : List Str → List Token
  | [] => []
  | [w] => if isQuantWord w then [] else [keywordToken w]
  | w :: w2 :: ws => keywordToken w :: specTokens (w2 :: ws)

theorem validWord_lower_ne_paren (w : Str) (hv : validWord w = true) :
    lowerStr w ≠ ['('] ∧ lowerStr w ≠ [')'] := by
  simp only [validWord, Bool.and_eq_true, List.all_eq_true] at hv
  constructor
  · intro h
    cases w with
    | nil => simp [lowerStr] at h
    | cons c cs =>
      cases cs with
      | cons d ds => simp [lowerStr] at h
      | nil =>
        simp only [lowerStr, List.map_cons, List.map_nil,
          List.cons.injEq, and_true] at h
        have hc : c = '(' :=
          (toLower_eq_special c '(' (by decide) (by decide)).mp h
        have := hv.2 c (by simp)
        rw [hc] at this
        simp at this
  · intro h
    cases w with
    | nil => simp [lowerStr] at h
    | cons c cs =>
      cases cs with
      | cons d ds => simp [lowerStr] at h
      | nil =>
        simp only [lowerStr, List.map_cons, List.map_nil,
          List.cons.injEq, and_true] at h
        have hc : c = ')' :=
          (toLower_eq_special c ')' (by decide) (by decide)).mp h
        have := hv.2 c (by simp)
        rw [hc] at this
        simp at this

theorem validWord_ne_nil (w : Str) (hv : validWord w = true) : w ≠ [] := by
  intro h
  rw [h] at hv
  simp [validWord] at hv

theorem keywordToken_of_quant (w : Str) (hq : isQuantWord w = true) :
    keywordToken w = Token.Selection w := by
  simp only [isQuantWord, Bool.or_eq_true, decide_eq_true_eq] at hq
  rcases hq with h | h <;>
    simp [keywordToken, h]

theorem wordTokenize_spec (ws : List Str) (q : Option Quant)
    (acc : List Token) (hv : ∀ w ∈ ws, validWord w = true)
    (hq : noQuantOf ws = true)
    (hok : ∀ qv w2 ws2, q = some qv → ws = w2 :: ws2 →
      lowerStr w2 ≠ ['o', 'f']) :
    wordTokenize ws q false acc =
      acc ++ (if ws.isEmpty then [] else pend q) ++ specTokens ws := by
  induction ws generalizing q acc with
  | nil => simp [wordTokenize, specTokens]
  | cons w ws ih =>
    have hvw : validWord w = true := hv w (by simp)
    have hvs : ∀ u ∈ ws, validWord u = true := fun u hu => hv u (by simp [hu])
    have hwne : w ≠ [] := validWord_ne_nil w hvw
    obtain ⟨hp1, hp2⟩ := validWord_lower_ne_paren w hvw
    have hofw : ∀ qv, q = some qv → lowerStr w ≠ ['o', 'f'] :=
      fun qv hqv => hok qv w ws hqv rfl
    cases ws with
    | nil =>
      rw [wordTokenize, processWord_char w q acc true hwne hp1 hp2 hofw]
      cases hqw : isQuantWord w with
      | true => simp [specTokens, hqw]
      | false => simp [specTokens, hqw]
    | cons w2 ws2 =>
      have hq2 : noQuantOf (w2 :: ws2) = true := by
        simp only [noQuantOf, Bool.and_eq_true] at hq
        exact hq.2
      have hqhead : (!isQuantWord w || !(lowerStr w2 = ['o', 'f'] : Bool)) = true := by
        simp only [noQuantOf, Bool.and_eq_true] at hq
        exact hq.1
      rw [wordTokenize]
      rw [processWord_char w q acc false hwne hp1 hp2 hofw]
      cases hqw : isQuantWord w with
      | true =>
        have hw2of : lowerStr w2 ≠ ['o', 'f'] := by
          rw [hqw] at hqhead
          simpa using hqhead
        simp only [hqw, if_true]
        rw [ih (some (quantOf w)) (acc ++ pend q) hvs hq2
          (fun qv u us hqv hus => by
            injection hus with h1 h2
            rw [← h1]
            exact hw2of)]
        rw [specTokens, keywordToken_of_quant w hqw]
        simp [pend, quantOf_toStr w hqw, List.append_assoc]
      | false =>
        simp only [hqw, Bool.false_eq_true, if_false]
        rw [ih none (acc ++ pend q ++ [keywordToken w]) hvs hq2
          (fun qv u us hqv => by cases hqv)]
        rw [specTokens]
        simp [pend, List.append_assoc]

/-- The single-byte scanner on a space-joined sequence of words (non-empty,
whitespace- and parenthesis-free) in which no `1`/`all` is followed by
`of` (case-insensitively): every non-final word maps to its keyword or
`Selection` token — a pending quantifier collapses back into a plain
`Selection` carrying the word — while a `1`/`all` that is the final word
is silently dropped (no token is emitted for it). -/
theorem tokenize_joinWords_spec (ws : List Str)
    (hv : ∀ w ∈ ws, validWord w = true) (hq : noQuantOf ws = true) :
    tokenize (joinWords ws) = specTokens ws := by
  rw [tokenize, tokenizeAux_joinWords ws none false [] hv,
    wordTokenize_spec ws none [] hv hq (fun qv u us hqv => by cases hqv)]
  cases ws <;> simp [pend]

theorem joinWords_ascii (ws : List Str)
    (h : ∀ w ∈ ws, ∀ c ∈ w, c.toNat < 128) :
    ∀ c ∈ joinWords ws, c.toNat < 128 := by
  induction ws with
  | nil => intro c hc; simp [joinWords] at hc
  | cons w ws ih =>
    intro c hc
    cases ws with
    | nil =>
      rw [joinWords] at hc
      exact h w (by simp) c hc
    | cons w2 ws2 =>
      rw [joinWords] at hc
      rcases List.mem_append.mp hc with h1 | h1
      · exact h w (by simp) c h1
      · rcases List.mem_cons.mp h1 with h2 | h2
        · subst h2; decide
        · exact ih (fun u hu => h u (by simp [hu])) c h2

/-- Counterexample to C8 as stated, on the byte-faithful lexer: the lexer
FAILS on `é x` (the word boundary at the space byte-slices through the
two-byte `é` -- a Rust panic, modelled `none`); on `aé` it silently
returns no tokens at all (the multi-byte character makes the end-of-input
test `i == input.len() - 1` compare a character ordinal against a byte
length, so the final word is never flushed); and in `x and all` the final
word `all` is not followed by `of`, yet no `Selection` token for it is
ever emitted -- the pending quantifier is dropped at end of input instead
of collapsing. -/
theorem c8_counterexample :
    tokenizeRs (String.data "é x") = none ∧
    tokenizeRs (String.data "aé") = some [] ∧
    tokenizeRs (String.data "x and all") =
      some [Token.Selection (String.data "x"), Token.And] ∧
    Token.Selection (String.data "all") ∉
      [Token.Selection (String.data "x"), Token.And] := by
  decide

/-- C8 amended: the lexer is total only on single-byte (ASCII) input -- the
loop mixes character ordinals with byte offsets, so on other inputs it can
panic or silently drop the final word.  On ASCII input the
byte-faithful lexer never fails and agrees with the single-byte scanner;
and on any space-joined sequence of ASCII words (non-empty, whitespace-
and parenthesis-free) in which no `1`/`all` is followed by `of`
(case-insensitively), every non-final word maps to its keyword or
`Selection` token -- a pending quantifier collapses back into a plain
`Selection` carrying the word -- while a `1`/`all` that is the *final*
word of the input is silently dropped (no token is emitted for it). -/
theorem c8_amended :
    (∀ s : Str, (∀ c ∈ s, c.toNat < 128) →
      tokenizeRs s = some (tokenize s)) ∧
    (∀ ws : List Str, (∀ w ∈ ws, validWord w = true) →
      (∀ w ∈ ws, ∀ c ∈ w, c.toNat < 128) → noQuantOf ws = true →
      tokenizeRs (joinWords ws) = some (specTokens ws)) := by
  constructor
  · exact tokenizeRs_ascii
  · intro ws hv hascii hq
    rw [tokenizeRs_ascii (joinWords ws) (joinWords_ascii ws hascii),
      tokenize_joinWords_spec ws hv hq]

/-- Witness for the amended C8 on the words `all`, `y`: the lexer does not
fail, and the non-final quantifier word collapses to a `Selection`
token. -/
theorem c8_amended_witness :
    tokenizeRs (joinWords [String.data "all", String.data "y"]) =
      some (specTokens [String.data "all", String.data "y"]) :=
  c8_amended.2 [String.data "all", String.data "y"] (by decide) (by decide)
    (by decide)

/-! ## Value transformations (src/src/field/transformation.rs) -/

/-- UTF-8 encoding of one character (the byte representation Rust strings
use; `STANDARD_NO_PAD.encode` consumes these bytes). -/
def utf8EncodeChar (c : Char) : List Nat :=
  let n := c.toNat
  if n < 128 then [n]
  else if n < 2048 then [192 + n / 64, 128 + n % 64]
  else if n < 65536 then [224 + n / 4096, 128 + (n / 64) % 64, 128 + n % 64]
  else [240 + n / 262144, 128 + (n / 4096) % 64, 128 + (n / 64) % 64,
    128 + n % 64]

/-- UTF-8 encoding of a string. -/
def utf8Encode : Str → List Nat
  | [] => []
  | c :: cs => utf8EncodeChar c ++ utf8Encode cs

/-- `str::encode_utf16` code units of one character (surrogate pairs above
the BMP). -/
def utf16Units (c : Char) : List Nat :=
  let n := c.toNat
  if n < 65536 then [n]
  else [55296 + (n - 65536) / 1024, 56320 + (n - 65536) % 1024]

/-- `u16::to_le_bytes` / `to_be_bytes` of a code unit. -/
def unitBytes (le : Bool) (u : Nat) : List Nat :=
  if le then [u % 256, u / 256] else [u / 256, u % 256]

/-- UTF-16 byte encoding of a string (little- or big-endian). -/
def utf16Encode (le : Bool) : Str → List Nat
  | [] => []
  | c :: cs =>
    ((utf16Units c).foldr (fun u acc => unitBytes le u ++ acc) []) ++
      utf16Encode le cs

/-- The standard base64 alphabet. -/
def b64Char (n : Nat) : Char :=
  "ABCDEFGHIJKLMNOPQRSTUVWXYZabcdefghijklmnopqrstuvwxyz0123456789+/".toList.getD n 'A'

/-- `STANDARD_NO_PAD.encode`, modelled by three-byte chunking (the base64
crate is external; this is the standard unpadded encoding). -/
def b64Chunks : List Nat → Str
  | a :: b :: c :: rest =>
    b64Char (a / 4) :: b64Char ((a % 4) * 16 + b / 16) ::
      b64Char ((b % 16) * 4 + c / 64) :: b64Char (c % 64) :: b64Chunks rest
  | [a, b] => [b64Char (a / 4), b64Char ((a % 4) * 16 + b / 16),
      b64Char ((b % 16) * 4)]
  | [a] => [b64Char (a / 4), b64Char ((a % 4) * 16)]
  | [] => []

/-- `encode_base64` (transformation.rs lines 6-30): encode the UTF-8 or
UTF-16 bytes without padding, then drop the trailing character when the
encoded length is 2 or 3 modulo 4. -/
def encode_base64 (input : FieldValue) (m : Option Utf16Modifier) : Str :=
  let bytes :=
    match m with
    | some .utf16le => utf16Encode true (FieldValue.value_to_string input)
    | some .utf16be => utf16Encode false (FieldValue.value_to_string input)
    | none => utf8Encode (FieldValue.value_to_string input)
  let encoded := b64Chunks bytes
  if encoded.length % 4 = 2 ∨ encoded.length % 4 = 3 then encoded.dropLast
  else encoded

/-- `encode_base64_offset` (transformation.rs lines 32-71): the plain
encoding, plus the encodings of the input prefixed by `char_width` and
`2 * char_width` NUL characters with `char_width * (1 + char_width)` and
`2 * char_width * (1 + char_width) - 1` leading characters drained, each
kept only when longer than the drained count (the 0-offset one when
non-empty). -/
def encode_base64_offset (input : FieldValue) (m : Option Utf16Modifier) :
    List Str :=
  let char_width : Nat :=
    match m with
    | some _ => 2
    | none => 1
  let output0 := encode_base64 input m
  let output1 := encode_base64
    (.String (List.replicate char_width (Char.ofNat 0) ++
      FieldValue.value_to_string input)) m
  let output2 := encode_base64
    (.String (List.replicate (2 * char_width) (Char.ofNat 0) ++
      FieldValue.value_to_string input)) m
  (if output0.isEmpty then [] else [output0]) ++
  (if char_width * (1 + char_width) < output1.length then
    [output1.drop (char_width * (1 + char_width))]
  else []) ++
  (if 2 * (char_width * (1 + char_width)) - 1 < output2.length then
    [output2.drop (2 * (char_width * (1 + char_width)) - 1)]
  else [])

/-! ## Claim C7: base64 offset expansion -/

/-- The bits of a byte, most significant first (claim-side view of base64
as a bit stream). -/
def byteBits (n : Nat) : List Nat :=
  [n / 128 % 2, n / 64 % 2, n / 32 % 2, n / 16 % 2, n / 8 % 2, n / 4 % 2,
    n / 2 % 2, n % 2]

/-- Concatenated bits of a byte list. -/
def bytesBits : List Nat → List Nat
  | [] => []
  | b :: bs => byteBits b ++ bytesBits bs

/-- The value of a big-endian bit list. -/
def bitsToNat (bs : List Nat) : Nat := bs.foldl (fun a b => 2 * a + b) 0

/-- Split a bit stream into groups of six (a final short group keeps its
length). -/
def group6 : List Nat → List (List Nat)
  | [] => []
  | b1 :: b2 :: b3 :: b4 :: b5 :: b6 :: rest =>
    [b1, b2, b3, b4, b5, b6] :: group6 rest
  | bs => [bs]

/-- A six-bit group's base64 character; a short final group is padded with
zero bits on the right. -/
def specB64Char (g : List Nat) : Char := b64Char (bitsToNat g * 2 ^ (6 - g.length))

/-- Unpadded base64 as the claim describes it: the byte stream's bits in
six-bit groups, each mapped to the alphabet. -/
def specB64 (bytes : List Nat) : Str := (group6 (bytesBits bytes)).map specB64Char

/-- The claim's trailing-character drop: when the encoded length is 2 or 3
modulo 4 the final character is dropped. -/
def specTrim (s : Str) : Str :=
  if s.length % 4 = 2 ∨ s.length % 4 = 3 then s.dropLast else s

/-- The claim-side encoding pipeline: widen (UTF-8 or UTF-16), base64
without padding, drop the trailing character per `specTrim`. -/
def specEncode (m : Option Utf16Modifier) (s : Str) : Str :=
  specTrim (specB64
    (match m with
     | some .utf16le => utf16Encode true s
     | some .utf16be => utf16Encode false s
     | none => utf8Encode s))

/-- `char_width` from transformation.rs lines 38-41. -/
def charWidth (m : Option Utf16Modifier) : Nat :=
  match m with
  | some _ => 2
  | none => 1

theorem char_toNat_lt (c : Char) : c.toNat < 1114112 := by
  rcases c.valid with h | ⟨h1, h2⟩
  · have h' : c.val.toNat < 55296 := h
    simp only [Char.toNat]
    omega
  · have h' : c.val.toNat < 1114112 := h2
    simp only [Char.toNat]
    omega

theorem utf8EncodeChar_lt (c : Char) : ∀ b ∈ utf8EncodeChar c, b < 256 := by
  intro b hb
  have hc := char_toNat_lt c
  unfold utf8EncodeChar at hb
  by_cases h1 : c.toNat < 128
  · simp only [h1, if_true] at hb
    simp only [List.mem_singleton] at hb
    omega
  · by_cases h2 : c.toNat < 2048
    · simp only [h1, h2, if_true, if_false] at hb
      rcases List.mem_pair.mp (by simpa using hb) with h | h <;> omega
    · by_cases h3 : c.toNat < 65536
      · simp only [h1, h2, h3, if_true, if_false] at hb
        simp only [List.mem_cons, List.mem_singleton, List.not_mem_nil,
          or_false] at hb
        rcases hb with h | h | h <;> omega
      · simp only [h1, h2, h3, if_false] at hb
        simp only [List.mem_cons, List.mem_singleton, List.not_mem_nil,
          or_false] at hb
        rcases hb with h | h | h | h <;> omega

theorem utf8Encode_lt (s : Str) : ∀ b ∈ utf8Encode s, b < 256 := by
  induction s with
  | nil => intro b hb; simp [utf8Encode] at hb
  | cons c cs ih =>
    intro b hb
    rw [utf8Encode] at hb
    rcases List.mem_append.mp hb with h | h
    · exact utf8EncodeChar_lt c b h
    · exact ih b h

theorem unitBytes_lt (le : Bool) (u : Nat) (hu : u < 65536) :
    ∀ b ∈ unitBytes le u, b < 256 := by
  intro b hb
  unfold unitBytes at hb
  cases le <;> simp only [if_true, if_false, Bool.false_eq_true] at hb <;>
    rcases List.mem_pair.mp (by simpa using hb) with h | h <;> omega

theorem utf16Units_lt (c : Char) : ∀ u ∈ utf16Units c, u < 65536 := by
  intro u hu
  have hc := char_toNat_lt c
  unfold utf16Units at hu
  by_cases h1 : c.toNat < 65536
  · simp only [h1, if_true] at hu
    simp only [List.mem_singleton] at hu
    omega
  · simp only [h1, if_false] at hu
    rcases List.mem_pair.mp (by simpa using hu) with h | h
    · have : (c.toNat - 65536) / 1024 < 1024 := by omega
      omega
    · have : (c.toNat - 65536) % 1024 < 1024 := Nat.mod_lt _ (by omega)
      omega

theorem foldr_unitBytes_lt (le : Bool) (us : List Nat)
    (h : ∀ u ∈ us, u < 65536) :
    ∀ b ∈ us.foldr (fun u acc => unitBytes le u ++ acc) [], b < 256 := by
  induction us with
  | nil => intro b hb; simp at hb
  | cons u us ih =>
    intro b hb
    simp only [List.foldr_cons] at hb
    rcases List.mem_append.mp hb with h2 | h2
    · exact unitBytes_lt le u (h u (by simp)) b h2
    · exact ih (fun v hv => h v (by simp [hv])) b h2

theorem utf16Encode_lt (le : Bool) (s : Str) : ∀ b ∈ utf16Encode le s, b < 256 := by
  induction s with
  | nil => intro b hb; simp [utf16Encode] at hb
  | cons c cs ih =>
    intro b hb
    rw [utf16Encode] at hb
    rcases List.mem_append.mp hb with h | h
    · exact foldr_unitBytes_lt le (utf16Units c) (utf16Units_lt c) b h
    · exact ih b h

theorem b64Chunks_eq_specB64 (bytes : List Nat) (h : ∀ b ∈ bytes, b < 256) :
    b64Chunks bytes = specB64 bytes := by
  suffices H : ∀ (n : Nat) (bs : List Nat), bs.length ≤ n →
      (∀ b ∈ bs, b < 256) → b64Chunks bs = specB64 bs from
    H bytes.length bytes le_rfl h
  intro n
  induction n with
  | zero =>
    intro bs hlen _
    have : bs = [] := List.eq_nil_of_length_eq_zero (Nat.le_zero.mp hlen)
    subst this
    rfl
  | succ n ih =>
    intro bs hlen hbd
    match bs with
    | [] => rfl
    | [a] =>
      have ha : a < 256 := hbd a (by simp)
      simp only [specB64, bytesBits, byteBits, List.append_nil, List.nil_append]
      simp only [group6, List.map_cons, List.map_nil, specB64Char, bitsToNat,
        List.foldl, List.length_cons, List.length_nil]
      rw [b64Chunks]
      norm_num
      constructor
      · congr 1
        omega
      · congr 1
        omega
    | [a, b] =>
      have ha : a < 256 := hbd a (by simp)
      have hb : b < 256 := hbd b (by simp)
      simp only [specB64, bytesBits, byteBits, List.append_nil, List.nil_append,
        List.cons_append]
      simp only [group6, List.map_cons, List.map_nil, specB64Char, bitsToNat,
        List.foldl, List.length_cons, List.length_nil]
      rw [b64Chunks]
      norm_num
      refine ⟨?_, ?_, ?_⟩ <;> (congr 1; omega)
    | a :: b :: c :: rest =>
      have ha : a < 256 := hbd a (by simp)
      have hb : b < 256 := hbd b (by simp)
      have hc : c < 256 := hbd c (by simp)
      have htail : b64Chunks rest = specB64 rest := by
        refine ih rest ?_ ?_
        · simp only [List.length_cons] at hlen; omega
        · intro x hx; exact hbd x (by simp [hx])
      rw [b64Chunks, htail]
      simp only [specB64, bytesBits, byteBits, List.cons_append, List.nil_append]
      simp only [group6, List.map_cons, specB64Char, bitsToNat, List.foldl,
        List.length_cons, List.length_nil]
      norm_num
      refine ⟨?_, ?_, ?_, ?_⟩ <;> (congr 1; omega)

theorem encode_base64_spec (m : Option Utf16Modifier) (s : Str) :
    encode_base64 (.String s) m = specEncode m s := by
  cases m with
  | none =>
    simp only [encode_base64, specEncode, specTrim, FieldValue.value_to_string]
    rw [b64Chunks_eq_specB64 (utf8Encode s) (utf8Encode_lt s)]
  | some u =>
    cases u
    · simp only [encode_base64, specEncode, specTrim, FieldValue.value_to_string]
      rw [b64Chunks_eq_specB64 _ (utf16Encode_lt true s)]
    · simp only [encode_base64, specEncode, specTrim, FieldValue.value_to_string]
      rw [b64Chunks_eq_specB64 _ (utf16Encode_lt false s)]

/-- C7 counterexample: under the utf16le modifier the offset-1 encoding that
the code emits for the source string "ab" is NOT the claim's construction
(prefix the source with ONE null character, i.e. one UTF-16 null code unit,
encode and strip 6 leading characters): the code prefixes `char_width = 2`
null characters (two code units, four bytes). -/
theorem c7_counterexample :
    (encode_base64_offset (.String ['a', 'b']) (some .utf16le)).get? 1 ≠
      some (List.drop 6 (specEncode (some .utf16le)
        (List.replicate 1 (Char.ofNat 0) ++ ['a', 'b']))) := by decide

/-- C7 (amended): base64-offset expansion produces up to three encodings
(empty source gives none), each equal to the unpadded trailing-trimmed
base64 of the source prefixed with 0, `char_width`, or `2 * char_width`
null characters -- 0/1/2 nulls in the 8-bit case but 0/2/4 null characters
(code units) in the UTF-16 case -- stripped of exactly 0/2/3 leading
characters (8-bit) resp. 0/6/11 (UTF-16). -/
theorem c7_amended (S : Str) (m : Option Utf16Modifier) :
    (encode_base64_offset (.String S) m).length ≤ 3 ∧
    (S = [] → encode_base64_offset (.String S) m = []) ∧
    ∀ e ∈ encode_base64_offset (.String S) m,
      e = specEncode m S ∨
      e = List.drop (charWidth m * (1 + charWidth m))
        (specEncode m (List.replicate (charWidth m) (Char.ofNat 0) ++ S)) ∨
      e = List.drop (2 * (charWidth m * (1 + charWidth m)) - 1)
        (specEncode m (List.replicate (2 * charWidth m) (Char.ofNat 0) ++ S)) := by
  have hdef : encode_base64_offset (.String S) m =
      (if (encode_base64 (.String S) m).isEmpty then []
        else [encode_base64 (.String S) m]) ++
      (if charWidth m * (1 + charWidth m) <
          (encode_base64 (.String (List.replicate (charWidth m)
            (Char.ofNat 0) ++ S)) m).length then
        [(encode_base64 (.String (List.replicate (charWidth m)
          (Char.ofNat 0) ++ S)) m).drop (charWidth m * (1 + charWidth m))]
      else []) ++
      (if 2 * (charWidth m * (1 + charWidth m)) - 1 <
          (encode_base64 (.String (List.replicate (2 * charWidth m)
            (Char.ofNat 0) ++ S)) m).length then
        [(encode_base64 (.String (List.replicate (2 * charWidth m)
          (Char.ofNat 0) ++ S)) m).drop
            (2 * (charWidth m * (1 + charWidth m)) - 1)]
      else []) := rfl
  refine ⟨?_, ?_, ?_⟩
  · rw [hdef]
    split <;> split <;> split <;> simp
  · intro hS
    subst hS
    cases m with
    | none => decide
    | some u => cases u <;> decide
  · intro e he
    rw [hdef] at he
    simp only [encode_base64_spec] at he
    rcases List.mem_append.mp he with h | h
    · rcases List.mem_append.mp h with h1 | h1
      · left
        split at h1
        · exact absurd h1 (by simp)
        · exact List.mem_singleton.mp h1
      · right; left
        split at h1
        · exact List.mem_singleton.mp h1
        · exact absurd h1 (by simp)
    · right; right
      split at h
      · exact List.mem_singleton.mp h
      · exact absurd h (by simp)

theorem c7_amended_empty_witness :
    encode_base64_offset (.String []) (some .utf16le) = [] :=
  (c7_amended [] (some .utf16le)).2.1 rfl

/-! ## Claim C9: selection construction and mixed sequences

The selection parser (src/src/selection.rs) builds on the `Field` of
src/src/field.rs, an older revision than field/modifier.rs; its modifier
enums are modelled from the spec where that older modifier module is not
under src/. -/

/-- `TryFrom<serde_yml::Value> for FieldValue` (value.rs lines 125-146):
booleans, numbers (signed, float, else unsigned, in that order), strings
and null convert; everything else is `InvalidYAML`. -/
def fieldValueTryFrom : Yaml → Except ParserError FieldValue
  | .BoolY b => .ok (.Boolean b)
  | .NumY (.i v) => .ok (.Int v)
  | .NumY (.f v) => .ok (.Float v)
  | .NumY (.u v) => .ok (.Unsigned v)
  | .StrY s => .ok (.String s)
  | .NullY => .ok .Null
  | v => .error (.InvalidYAML v)

/-- Modelled from the spec: the older revision's match-modifier enum used
by src/src/field.rs (its modifier.rs is not under src/).  Spec section 3
lists the match-modifier names; in this revision `Re` and `Cidr` are a
separate standalone enum and `exists` does not exist, per the usage in
field.rs lines 69-86 and 148-158. -/
inductive OldMatchModifier where
  | contains | startswith | endswith | gt | gte | lt | lte
  deriving DecidableEq, Repr

/-- Modelled from the spec: the older revision's standalone modifier enum
(`Re` and `Cidr`, spec sections 3 and 4.3), used by field.rs lines 88-107
and 217-223. -/
inductive StandaloneModifier where
  | re | cidr
  deriving DecidableEq, Repr

/-- Modelled from the spec: the older revision's value-transformer enum
(spec section 3: Base64/Base64offset with optional UTF-16 flavor, Windash;
no `cased`), used by field.rs lines 109-127 and 202-215. -/
inductive OldValueTransformer where
  | base64 (m : Option Utf16Modifier)
  | base64offset (m : Option Utf16Modifier)
  | windash
  deriving DecidableEq, Repr

/-- Modelled from the spec: the older revision's `Modifier` record as
field.rs uses it (`match_modifier`, a single optional `value_transformer`,
and `standalone_modifier`). -/
structure OldModifier where
  match_modifier : Option OldMatchModifier
  value_transformer : Option OldValueTransformer
  standalone_modifier : Option StandaloneModifier

/-- Modelled from the spec: `Modifier::default()` of the older revision. -/
def OldModifier.default : OldModifier :=
  { match_modifier := none, value_transformer := none,
    standalone_modifier := none }

/-- Modelled from the spec: `MatchModifier::from_str` of the older
revision (strum, lowercase spellings per spec section 4.3). -/
def OldMatchModifier.fromStr (s : Str) : Option OldMatchModifier :=
  if s = String.data "contains" then some .contains
  else if s = String.data "startswith" then some .startswith
  else if s = String.data "endswith" then some .endswith
  else if s = String.data "gt" then some .gt
  else if s = String.data "gte" then some .gte
  else if s = String.data "lt" then some .lt
  else if s = String.data "lte" then some .lte
  else none

/-- Modelled from the spec: the older revision's lowercase `Display` for
match modifiers (used in `ConflictingModifiers` payloads). -/
def OldMatchModifier.toStr : OldMatchModifier → Str
  | .contains => String.data "contains"
  | .startswith => String.data "startswith"
  | .endswith => String.data "endswith"
  | .gt => String.data "gt"
  | .gte => String.data "gte"
  | .lt => String.data "lt"
  | .lte => String.data "lte"

/-- `Utf16Modifier::from_str` (modifier.rs lines 45-56): `utf16le` and
`utf16be` parse, `utf16` and `wide` are ambiguous, anything else is an
unknown modifier. -/
def utf16ModifierFromStr (s : Str) : Except ParserError Utf16Modifier :=
  let l := lowerStr s
  if l = String.data "utf16le" then .ok .utf16le
  else if l = String.data "utf16be" then .ok .utf16be
  else if l = String.data "utf16" ∨ l = String.data "wide" then
    .error (.AmbiguousUtf16Modifier s)
  else .error (.UnknownModifier s)

/-- The strum `Display` of `Utf16Modifier` (variant spelling, no lowercase
attribute in modifier.rs lines 21-25). -/
def Utf16Modifier.toStr : Utf16Modifier → Str
  | .utf16le => String.data "Utf16le"
  | .utf16be => String.data "Utf16be"

/-- Modelled from the spec: `ValueTransformer::from_str` of the older
revision (lowercase; a bare `base64`/`base64offset` carries no UTF-16
flavor yet). -/
def OldValueTransformer.fromStr (s : Str) : Option OldValueTransformer :=
  if s = String.data "base64" then some (.base64 none)
  else if s = String.data "base64offset" then some (.base64offset none)
  else if s = String.data "windash" then some .windash
  else none

/-- Modelled from the spec: lowercase `Display` of the older revision's
value transformers. -/
def OldValueTransformer.toStr : OldValueTransformer → Str
  | .base64 _ => String.data "base64"
  | .base64offset _ => String.data "base64offset"
  | .windash => String.data "windash"

/-- Modelled from the spec: `StandaloneModifier::from_str` of the older
revision (`re` and `cidr`). -/
def StandaloneModifier.fromStr (s : Str) : Option StandaloneModifier :=
  if s = String.data "re" then some .re
  else if s = String.data "cidr" then some .cidr
  else none

/-- Modelled from the spec: lowercase `Display` of the older revision's
standalone modifiers. -/
def StandaloneModifier.toStr : StandaloneModifier → Str
  | .re => String.data "re"
  | .cidr => String.data "cidr"

/-- `Field` from src/src/field.rs lines 22-28 (older revision, prefixed
`Old` to keep it apart from the current revision's `Field` above). -/
structure OldField where
  name : Str
  values : List FieldValue
  match_all : Bool
  modifier : OldModifier

/-- `str::split` on a single separator character: every separator starts a
new piece, empty pieces included; never returns an empty list. -/
def splitOnCharAux (sep : Char) : Str → Str → List Str
  | acc, [] => [acc.reverse]
  | acc, c :: rest =>
    if c = sep then acc.reverse :: splitOnCharAux sep [] rest
    else splitOnCharAux sep (c :: acc) rest

/-- `s.split(sep)` for a one-character separator. -/
def splitOnChar (sep : Char) (s : Str) : List Str := splitOnCharAux sep [] s

/-- The modifier-classification loop of `Field::parse` (field.rs lines
141-200): each pipe-separated suffix is lowercased and tried as `all`, a
match modifier, a UTF-16 modifier, a value transformer and a standalone
modifier in that order; duplicates in a class conflict, and an
unclassifiable suffix is an unknown modifier.  The pending UTF-16 flavor
is threaded alongside the field. -/
def OldField.parseLoop (f : OldField) (u : Option Utf16Modifier) :
    List Str → Except ParserError (OldField × Option Utf16Modifier)
  | [] => .ok (f, u)
  | s0 :: rest =>
    let s := lowerStr s0
    if s = String.data "all" then
      OldField.parseLoop { f with match_all := true } u rest
    else
      match OldMatchModifier.fromStr s with
      | some mt =>
        match f.modifier.match_modifier with
        | some m =>
          .error (.ConflictingModifiers (OldMatchModifier.toStr mt)
            (OldMatchModifier.toStr m))
        | none =>
          OldField.parseLoop
            { f with modifier := { f.modifier with match_modifier := some mt } }
            u rest
      | none =>
        match utf16ModifierFromStr s with
        | .ok m =>
          match u with
          | some m2 =>
            .error (.ConflictingModifiers (Utf16Modifier.toStr m)
              (Utf16Modifier.toStr m2))
          | none => OldField.parseLoop f (some m) rest
        | .error (.UnknownModifier _) =>
          match OldValueTransformer.fromStr s with
          | some vt =>
            match f.modifier.value_transformer with
            | some v =>
              .error (.ConflictingModifiers (OldValueTransformer.toStr vt)
                (OldValueTransformer.toStr v))
            | none =>
              OldField.parseLoop
                { f with modifier :=
                  { f.modifier with value_transformer := some vt } }
                u rest
          | none =>
            match StandaloneModifier.fromStr s with
            | some st =>
              match f.modifier.standalone_modifier with
              | some s2 =>
                .error (.ConflictingModifiers (StandaloneModifier.toStr st)
                  (StandaloneModifier.toStr s2))
              | none =>
                OldField.parseLoop
                  { f with modifier :=
                    { f.modifier with standalone_modifier := some st } }
                  u rest
            | none => .error (.UnknownModifier s)
        | .error err => .error err

/-- The standalone post-check of `Field::parse` (field.rs lines 217-223):
a standalone modifier tolerates no match modifier or value transformer. -/
def OldField.standaloneCheck (f : OldField) : Except ParserError OldField :=
  match f.modifier.standalone_modifier with
  | some sm =>
    if f.modifier.match_modifier.isSome || f.modifier.value_transformer.isSome
    then .error (.StandaloneViolation (StandaloneModifier.toStr sm))
    else .ok f
  | none => .ok f

/-- `Field::parse` (field.rs lines 132-226): split the name on pipes, run
the classification loop, resolve a pending UTF-16 flavor into the base64
transformer (else `Utf16WithoutBase64`), then the standalone check. -/
def OldField.parse (s : Str) : Except ParserError OldField :=
  let splitted := splitOnChar '|' s
  let f0 : OldField :=
    { name := splitted.headD [], values := [], match_all := false,
      modifier := OldModifier.default }
  match OldField.parseLoop f0 none (splitted.drop 1) with
  | .error e => .error e
  | .ok (f, u) =>
    match u with
    | none => OldField.standaloneCheck f
    | some um =>
      match f.modifier.value_transformer with
      | some (.base64 _) =>
        OldField.standaloneCheck
          { f with modifier :=
            { f.modifier with value_transformer := some (.base64 (some um)) } }
      | some (.base64offset _) =>
        OldField.standaloneCheck
          { f with modifier :=
            { f.modifier with
              value_transformer := some (.base64offset (some um)) } }
      | some .windash => .error .Utf16WithoutBase64
      | none => .error .Utf16WithoutBase64

/-- Replace every non-overlapping occurrence of `pat` in `s` by `rep`,
left to right (`str::replace`); the fuel starts at the string length and
each step consumes at least one character. -/
def strReplaceAux (pat rep : Str) : Nat → Str → Str
  | 0, s => s
  | fuel + 1, s =>
    match s with
    | [] => []
    | c :: rest =>
      if strStarts s pat then rep ++ strReplaceAux pat rep fuel (s.drop pat.length)
      else c :: strReplaceAux pat rep fuel rest

/-- `str::replace` for a non-empty pattern (the windash flags always start
with a dash character, so the empty-pattern edge case never arises). -/
def strReplace (s pat rep : Str) : Str :=
  if pat.isEmpty then s else strReplaceAux pat rep s.length s

/-- The five windash dash alternatives (transformation.rs line 74): hyphen,
slash, en dash, em dash, horizontal bar. -/
def windashChars : List Str :=
  [String.data "-", String.data "/", String.data "–", String.data "—",
    String.data "―"]

/-- `windash_variations` (transformation.rs lines 73-101): collect the
space-delimited flags starting with a dash character (a `HashMap` keyed by
flag; modelled as a deduplicating list in insertion order), then for each
flag and each other dash alternative emit the original string with the
flag's first character replaced.  `replace_range(0..1, …)` is a BYTE-range
replacement in Rust and panics when the flag's leading dash is one of the
multi-byte alternatives (en dash, em dash, horizontal bar); it is modelled
at character level here, and no theorem below reaches that path. -/
def windash_variations (input : FieldValue) : List Str :=
  let original := FieldValue.value_to_string input
  let flags := splitOnChar ' ' original
  let replacements := flags.foldl
    (fun acc flag =>
      if windashChars.any (fun w => strStarts flag w) then
        (if acc.contains flag then acc else acc ++ [flag])
      else acc)
    []
  original :: replacements.flatMap
    (fun flag =>
      (windashChars.filter (fun w => !(strStarts flag w))).map
        (fun w => strReplace original flag (w ++ flag.drop 1)))

/-- The first non-`String` value, if any (the string-modifier check loop of
`Field::bootstrap`, field.rs lines 73-83). -/
def checkStringValues : List FieldValue → Option FieldValue
  | [] => none
  | .String _ :: rest => checkStringValues rest
  | v :: _ => some v

/-- The `cidr` arm of `Field::bootstrap` (field.rs lines 89-97): parse
every value's string form as an IP network via the external `cidr` crate
(passed in as `ip`), replacing it by the parsed network; the first failure
is an `IPParsing` error carrying the string and the crate's message. -/
def mapCidr (ip : Str → Except Str CidrAbs) :
    List FieldValue → Except ParserError (List FieldValue)
  | [] => .ok []
  | v :: rest =>
    match ip (FieldValue.value_to_string v) with
    | .ok c =>
      match mapCidr ip rest with
      | .ok vs => .ok (.Cidr c :: vs)
      | .error e => .error e
    | .error msg => .error (.IPParsing (FieldValue.value_to_string v) msg)

/-- The `re` arm of `Field::bootstrap` (field.rs lines 98-105): compile
every value's string form via the external regex engine (passed in as
`re`, `none` meaning compile failure), replacing it by the compiled
regex. -/
def mapRe (re : Str → Option ReAbs) :
    List FieldValue → Except ParserError (List FieldValue)
  | [] => .ok []
  | v :: rest =>
    match re (FieldValue.value_to_string v) with
    | some r =>
      match mapRe re rest with
      | .ok vs => .ok (.Regex r :: vs)
      | .error e => .error e
    | none => .error (.RegexParsing (FieldValue.value_to_string v))

/-- The value-transformer expansion of `Field::bootstrap` (field.rs lines
109-127): base64 maps each value, base64offset and windash expand each
value into several strings; no transformer leaves the values unchanged. -/
def applyTransformer : Option OldValueTransformer → List FieldValue →
    List FieldValue
  | none, vs => vs
  | some (.base64 u), vs => vs.map (fun v => .String (encode_base64 v u))
  | some (.base64offset u), vs =>
    vs.flatMap (fun v => (encode_base64_offset v u).map .String)
  | some .windash, vs =>
    vs.flatMap (fun v => (windash_variations v).map .String)

/-- `Field::bootstrap` (field.rs lines 64-130): empty values are an error;
string match modifiers demand string values; standalone `cidr`/`re`
replace the values by parsed networks / compiled regexes; finally the
value transformer expands the values. -/
def OldField.bootstrap (ip : Str → Except Str CidrAbs)
    (re : Str → Option ReAbs) (f : OldField) : Except ParserError OldField :=
  if f.values.isEmpty then .error (.EmptyValues f.name)
  else
    match f.modifier.match_modifier, checkStringValues f.values with
    | some .contains, some v => .error (.InvalidValueForStringModifier v)
    | some .startswith, some v => .error (.InvalidValueForStringModifier v)
    | some .endswith, some v => .error (.InvalidValueForStringModifier v)
    | _, _ =>
      match
        (match f.modifier.standalone_modifier with
         | some .cidr => mapCidr ip f.values
         | some .re => mapRe re f.values
         | none => .ok f.values) with
      | .error e => .error e
      | .ok vs =>
        .ok { f with
          values := applyTransformer f.modifier.value_transformer vs }

/-- `Field::new` (field.rs lines 31-45): parse the name-with-modifiers,
install the values, bootstrap. -/
def OldField.new (ip : Str → Except Str CidrAbs) (re : Str → Option ReAbs)
    (name : Str) (values : List FieldValue) : Except ParserError OldField :=
  match OldField.parse name with
  | .ok f => OldField.bootstrap ip re { f with values := values }
  | .error e => .error e

/-- The sequence arm of `Field::from_yaml`: convert every element. -/
def fieldValueList : List Yaml → Except ParserError (List FieldValue)
  | [] => .ok []
  | v :: rest =>
    match fieldValueTryFrom v with
    | .ok fv =>
      match fieldValueList rest with
      | .ok fvs => .ok (fv :: fvs)
      | .error e => .error e
    | .error e => .error e

/-- `Field::from_yaml` (field.rs lines 47-62): a scalar value becomes a
one-element value list, a sequence converts elementwise, a mapping (or
tagged value) is `InvalidYAML`; then `Field::new`. -/
def OldField.from_yaml (ip : Str → Except Str CidrAbs)
    (re : Str → Option ReAbs) (name : Str) (value : Yaml) :
    Except ParserError OldField :=
  match value with
  | .BoolY _ | .NumY _ | .StrY _ | .NullY =>
    match fieldValueTryFrom value with
    | .ok fv => OldField.new ip re name [fv]
    | .error e => .error e
  | .SeqY seq =>
    match fieldValueList seq with
    | .ok fvs => OldField.new ip re name fvs
    | .error e => .error e
  | v => .error (.InvalidYAML v)

/-- `FieldGroup` (selection.rs lines 14-17): a conjunction of fields. -/
structure FieldGroup where
  fields : List OldField

/-- The entry loop of `TryFrom<serde_yml::Mapping> for FieldGroup`
(selection.rs lines 27-36): every key must be a string and parses with its
value via `Field::from_yaml`; the first failure propagates. -/
def fieldGroupFields (ip : Str → Except Str CidrAbs)
    (re : Str → Option ReAbs) :
    List (Yaml × Yaml) → Except ParserError (List OldField)
  | [] => .ok []
  | (name, values) :: rest =>
    match name with
    | .StrY n =>
      match OldField.from_yaml ip re n values with
      | .ok f =>
        match fieldGroupFields ip re rest with
        | .ok fs => .ok (f :: fs)
        | .error e => .error e
      | .error e => .error e
    | _ => .error (.InvalidFieldName name)

/-- `TryFrom<serde_yml::Mapping> for FieldGroup` (selection.rs lines
25-37). -/
def fieldGroupTryFrom (ip : Str → Except Str CidrAbs)
    (re : Str → Option ReAbs) (m : List (Yaml × Yaml)) :
    Except ParserError FieldGroup :=
  match fieldGroupFields ip re m with
  | .ok fs => .ok ⟨fs⟩
  | .error e => .error e

/-- `Selection` (selection.rs lines 45-50). -/
inductive Selection where
  | Keyword (l : List Str)
  | Field (l : List FieldGroup)

/-- `n.to_string()` of a YAML number, for keyword selections. -/
def YNum.toStr : YNum → Str
  | .i v => (toString v).data
  | .u v => (toString v).data
  | .f v => (toString v).data

/-- The keyword loop of `TryFrom<Value> for Selection` (selection.rs lines
73-87): strings, numbers and booleans join the keyword list in their
textual form; any other element aborts with `InvalidKeywordSelection`
carrying that element. -/
def keywordLoop : List Yaml → Except ParserError (List Str)
  | [] => .ok []
  | v :: rest =>
    match v with
    | .StrY s =>
      match keywordLoop rest with
      | .ok ks => .ok (s :: ks)
      | .error e => .error e
    | .NumY n =>
      match keywordLoop rest with
      | .ok ks => .ok (YNum.toStr n :: ks)
      | .error e => .error e
    | .BoolY b =>
      match keywordLoop rest with
      | .ok ks =>
        .ok ((if b then String.data "true" else String.data "false") :: ks)
      | .error e => .error e
    | _ => .error (.SelectionParsingError [] (.InvalidKeywordSelection v))

/-- The field-list loop of `TryFrom<Value> for Selection` (selection.rs
lines 90-103): every element must be a mapping and becomes a field group;
a non-mapping element aborts with `MixedKeywordAndFieldlist`. -/
def fieldLoop (ip : Str → Except Str CidrAbs) (re : Str → Option ReAbs) :
    List Yaml → Except ParserError (List FieldGroup)
  | [] => .ok []
  | .MapY m :: rest =>
    match fieldGroupTryFrom ip re m with
    | .ok g =>
      match fieldLoop ip re rest with
      | .ok gs => .ok (g :: gs)
      | .error e => .error e
    | .error e => .error e
  | _ :: _ => .error (.SelectionParsingError [] .MixedKeywordAndFieldlist)

/-- `TryFrom<Value> for Selection` (selection.rs lines 60-116): an empty
sequence contains no fields; a sequence whose first element is not a
mapping is a keyword selection, otherwise a field-list selection; a bare
mapping is a one-group field selection; anything else is an invalid
selection type. -/
def selectionTryFrom (ip : Str → Except Str CidrAbs)
    (re : Str → Option ReAbs) : Yaml → Except ParserError Selection
  | .SeqY [] => .error (.SelectionParsingError [] .SelectionContainsNoFields)
  | .SeqY (v :: rest) =>
    if v.isMapping then
      match fieldLoop ip re (v :: rest) with
      | .ok gs => .ok (.Field gs)
      | .error e => .error e
    else
      match keywordLoop (v :: rest) with
      | .ok ks => .ok (.Keyword ks)
      | .error e => .error e
  | .MapY m =>
    match fieldGroupTryFrom ip re m with
    | .ok g => .ok (.Field [g])
    | .error e => .error e
  | _ => .error (.SelectionParsingError [] .InvalidSelectionType)

/-- A concrete stand-in for the external CIDR parser that always fails
(never reached in the theorems below). -/
def noIp : Str → Except Str CidrAbs := fun s => .error s

/-- A concrete stand-in for the external regex compiler that always fails
(never reached in the theorems below). -/
def noRe : Str → Option ReAbs := fun _ => none

/-- Discriminator: is this result exactly the `MixedKeywordAndFieldlist`
selection error? -/
def isMixedErr : Except ParserError Selection → Bool
  | .error (.SelectionParsingError _ .MixedKeywordAndFieldlist) => true
  | _ => false

theorem fieldLoop_mixed (ip : Str → Except Str CidrAbs)
    (re : Str → Option ReAbs) (l : List Yaml) (bad : Yaml)
    (rest : List Yaml)
    (hl : ∀ y ∈ l, ∃ mm g, y = .MapY mm ∧ fieldGroupTryFrom ip re mm = .ok g)
    (hbad : bad.isMapping = false) :
    fieldLoop ip re (l ++ bad :: rest) =
      .error (.SelectionParsingError [] .MixedKeywordAndFieldlist) := by
  induction l with
  | nil =>
    simp only [List.nil_append]
    cases bad with
    | MapY m => simp [Yaml.isMapping] at hbad
    | NullY => rfl
    | BoolY b => rfl
    | NumY n => rfl
    | StrY s => rfl
    | SeqY s => rfl
  | cons y l ih =>
    obtain ⟨mm, g, hy, hg⟩ := hl y (List.mem_cons_self y l)
    subst hy
    rw [List.cons_append]
    have hstep : fieldLoop ip re (Yaml.MapY mm :: (l ++ bad :: rest)) =
        match fieldGroupTryFrom ip re mm with
        | .ok g =>
          match fieldLoop ip re (l ++ bad :: rest) with
          | .ok gs => .ok (g :: gs)
          | .error e => .error e
        | .error e => .error e := rfl
    rw [hstep, hg, ih (fun z hz => hl z (List.mem_cons_of_mem _ hz))]

theorem keywordLoop_mapping_err (l : List Yaml)
    (hl : ∃ y ∈ l, y.isMapping = true) :
    ∃ w, keywordLoop l =
      .error (.SelectionParsingError [] (.InvalidKeywordSelection w)) := by
  induction l with
  | nil =>
    obtain ⟨y, hy, _⟩ := hl
    exact absurd hy (List.not_mem_nil y)
  | cons v l ih =>
    have htail : v.isMapping = false → ∃ y ∈ l, y.isMapping = true := by
      intro hv
      obtain ⟨y, hy, hm⟩ := hl
      rcases List.mem_cons.mp hy with h | h
      · subst h; rw [hv] at hm; cases hm
      · exact ⟨y, h, hm⟩
    cases v with
    | StrY s =>
      obtain ⟨w, hw⟩ := ih (htail rfl)
      refine ⟨w, ?_⟩
      have hstep : keywordLoop (.StrY s :: l) =
          match keywordLoop l with
          | .ok ks => .ok (s :: ks)
          | .error e => .error e := rfl
      rw [hstep, hw]
    | NumY n =>
      obtain ⟨w, hw⟩ := ih (htail rfl)
      refine ⟨w, ?_⟩
      have hstep : keywordLoop (.NumY n :: l) =
          match keywordLoop l with
          | .ok ks => .ok (YNum.toStr n :: ks)
          | .error e => .error e := rfl
      rw [hstep, hw]
    | BoolY b =>
      obtain ⟨w, hw⟩ := ih (htail rfl)
      refine ⟨w, ?_⟩
      have hstep : keywordLoop (.BoolY b :: l) =
          match keywordLoop l with
          | .ok ks =>
            .ok ((if b then String.data "true" else String.data "false") :: ks)
          | .error e => .error e := rfl
      rw [hstep, hw]
    | NullY => exact ⟨.NullY, rfl⟩
    | SeqY s => exact ⟨.SeqY s, rfl⟩
    | MapY m => exact ⟨.MapY m, rfl⟩

/-- C9 counterexample: a sequence mixing a scalar and a mapping whose FIRST
element is the scalar is rejected with `InvalidKeywordSelection` (carrying
the offending mapping), not with the claimed `MixedKeywordAndFieldlist`:
the parser commits to keyword mode from the first element alone. -/
theorem c9_counterexample :
    selectionTryFrom noIp noRe
      (.SeqY [.NumY (.i 0),
        .MapY [(.StrY (String.data "hello"), .StrY (String.data "world"))]]) =
      .error (.SelectionParsingError []
        (.InvalidKeywordSelection
          (.MapY [(.StrY (String.data "hello"),
            .StrY (String.data "world"))]))) ∧
    isMixedErr (selectionTryFrom noIp noRe
      (.SeqY [.NumY (.i 0),
        .MapY [(.StrY (String.data "hello"),
          .StrY (String.data "world"))]])) = false :=
  ⟨rfl, rfl⟩

/-- C9 (amended): a mixed scalar/mapping sequence always fails, but the
error depends on the FIRST element.  If the first element is a mapping and
every mapping before the first non-mapping parses as a field group, the
error is `MixedKeywordAndFieldlist`; if the first element is a scalar, the
keyword loop fails at its first non-scalar element with
`InvalidKeywordSelection`, never with `MixedKeywordAndFieldlist`. -/
theorem c9_amended :
    (∀ (ip : Str → Except Str CidrAbs) (re : Str → Option ReAbs)
      (m0 : List (Yaml × Yaml)) (maps : List Yaml) (bad : Yaml)
      (rest : List Yaml),
      (∀ y ∈ Yaml.MapY m0 :: maps,
        ∃ mm g, y = .MapY mm ∧ fieldGroupTryFrom ip re mm = .ok g) →
      bad.isMapping = false →
      selectionTryFrom ip re
        (.SeqY (Yaml.MapY m0 :: (maps ++ bad :: rest))) =
        .error (.SelectionParsingError [] .MixedKeywordAndFieldlist)) ∧
    (∀ (ip : Str → Except Str CidrAbs) (re : Str → Option ReAbs)
      (v : Yaml) (rest : List Yaml),
      v.isMapping = false →
      (∃ y ∈ v :: rest, y.isMapping = true) →
      ∃ w, selectionTryFrom ip re (.SeqY (v :: rest)) =
        .error (.SelectionParsingError [] (.InvalidKeywordSelection w))) := by
  constructor
  · intro ip re m0 maps bad rest hok hbad
    have hstep : selectionTryFrom ip re
        (.SeqY (Yaml.MapY m0 :: (maps ++ bad :: rest))) =
        match fieldLoop ip re (Yaml.MapY m0 :: (maps ++ bad :: rest)) with
        | .ok gs => .ok (.Field gs)
        | .error e => .error e := rfl
    rw [hstep]
    have hmix : fieldLoop ip re ((Yaml.MapY m0 :: maps) ++ bad :: rest) =
        .error (.SelectionParsingError [] .MixedKeywordAndFieldlist) :=
      fieldLoop_mixed ip re (Yaml.MapY m0 :: maps) bad rest hok hbad
    rw [List.cons_append] at hmix
    rw [hmix]
  · intro ip re v rest hv hsome
    obtain ⟨w, hw⟩ := keywordLoop_mapping_err (v :: rest) hsome
    refine ⟨w, ?_⟩
    have hstep : selectionTryFrom ip re (.SeqY (v :: rest)) =
        match keywordLoop (v :: rest) with
        | .ok ks => .ok (.Keyword ks)
        | .error e => .error e := by
      cases v with
      | MapY m => simp [Yaml.isMapping] at hv
      | NullY => rfl
      | BoolY b => rfl
      | NumY n => rfl
      | StrY s => rfl
      | SeqY s => rfl
    rw [hstep, hw]

theorem c9_amended_witness :
    selectionTryFrom noIp noRe
      (.SeqY [.MapY [(.StrY (String.data "a"), .StrY (String.data "b"))],
        .NumY (.i 5)]) =
      .error (.SelectionParsingError [] .MixedKeywordAndFieldlist) := by
  have h := c9_amended.1 noIp noRe
    [(.StrY (String.data "a"), .StrY (String.data "b"))] [] (.NumY (.i 5)) []
    (fun y hy => by
      simp only [List.mem_singleton] at hy
      subst hy
      exact ⟨[(.StrY (String.data "a"), .StrY (String.data "b"))], _, rfl, rfl⟩)
    rfl
  simpa using h

/-! ## Claim C5: vacuous glob quantifiers -/

mutual

/-- `EventValue::contains` (event.rs lines 48-54): a scalar contains the
string as a substring of its textual form; sequences and maps recurse into
their values. -/
def EventValue.containsStr (s : Str) : EventValue → Bool
  | .Value v => strContains (FieldValue.value_to_string v) s
  | .Sequence l => EventValue.listContainsStr s l
  | .Map m => EventValue.mapContainsStr s m

/-- The `seq.iter().any(…)` of `EventValue::contains`. -/
def EventValue.listContainsStr (s : Str) : List EventValue → Bool
  | [] => false
  | v :: rest => EventValue.containsStr s v || EventValue.listContainsStr s rest

/-- The `m.values().any(…)` of `EventValue::contains`. -/
def EventValue.mapContainsStr (s : Str) : List (Str × EventValue) → Bool
  | [] => false
  | (_, v) :: rest =>
    EventValue.containsStr s v || EventValue.mapContainsStr s rest

end

/-- `Event::values` (event.rs lines 154-156). -/
def Event.values (e : Event) : List EventValue := e.inner.map Prod.snd

/-- `Field::compare` of the older revision (field.rs lines 228-248):
standalone `re`/`cidr` first, then the match modifier, implicit strict
`PartialEq` equality when none.  The string comparisons thread the global
pattern cache; this revision has no `cased` flag, so case folding is always
on (`cased = false`). -/
def OldField.compare (f : OldField) (target value : FieldValue)
    (cache : Cache) : Bool × Cache :=
  match f.modifier.standalone_modifier with
  | some .re =>
    (FieldValue.is_regex_match value (FieldValue.value_to_string target), cache)
  | some .cidr => (FieldValue.cidr_contains value target, cache)
  | none =>
    match f.modifier.match_modifier with
    | some .contains => FieldValue.contains target value false cache
    | some .startswith => FieldValue.starts_with target value false cache
    | some .endswith => FieldValue.ends_with target value false cache
    | some .gt => (FieldValue.gtV target value, cache)
    | some .gte => (FieldValue.geV target value, cache)
    | some .lt => (FieldValue.ltV target value, cache)
    | some .lte => (FieldValue.leV target value, cache)
    | none => (FieldValue.eq value target, cache)

/-- The compare loop of the older revision's `Field::evaluate` (field.rs
lines 260-271) with `match_all` short-circuiting. -/
def OldField.evalLoop (f : OldField) (target : FieldValue) :
    List FieldValue → Cache → Bool × Cache
  | [], cache => (f.match_all, cache)
  | v :: vs, cache =>
    let fc := OldField.compare f target v cache
    if fc.fst && !f.match_all then (true, fc.snd)
    else if !fc.fst && f.match_all then (false, fc.snd)
    else OldField.evalLoop f target vs fc.snd

/-- `Field::evaluate` of the older revision (field.rs lines 250-275):
missing field → false; empty values → true (defensive); otherwise the
compare loop.  The event lookup of the event.rs under src/ yields an
`EventValue`; a non-scalar target is rejected per spec section 4.5
step 3. -/
def OldField.evaluate (f : OldField) (e : Event) (cache : Cache) :
    Bool × Cache :=
  match e.get f.name with
  | some (EventValue.Value target) =>
    if f.values.isEmpty then (true, cache)
    else OldField.evalLoop f target f.values cache
  | some _ => (false, cache)
  | none => (false, cache)

/-- The `fields.iter().all(…)` of `FieldGroup::evaluate` (selection.rs
lines 20-23), short-circuiting, with the cache threaded. -/
def FieldGroup.evalFields (e : Event) :
    List OldField → Cache → Bool × Cache
  | [], cache => (true, cache)
  | f :: rest, cache =>
    let r := OldField.evaluate f e cache
    if r.fst then FieldGroup.evalFields e rest r.snd else (false, r.snd)

/-- `FieldGroup::evaluate` (selection.rs lines 20-23). -/
def FieldGroup.evaluate (g : FieldGroup) (e : Event) (cache : Cache) :
    Bool × Cache :=
  FieldGroup.evalFields e g.fields cache

/-- The `field_groups.iter().any(…)` of `Selection::evaluate`,
short-circuiting, with the cache threaded. -/
def Selection.evalGroups (e : Event) :
    List FieldGroup → Cache → Bool × Cache
  | [], cache => (false, cache)
  | g :: rest, cache =>
    let r := FieldGroup.evaluate g e cache
    if r.fst then (true, r.snd) else Selection.evalGroups e rest r.snd

/-- `Selection::evaluate` (selection.rs lines 118-127): a keyword selection
fires when any event value contains any keyword; a field selection when any
group fires. -/
def Selection.evaluate (sel : Selection) (e : Event) (cache : Cache) :
    Bool × Cache :=
  match sel with
  | .Keyword keywords =>
    ((Event.values e).any (fun v =>
      keywords.any (fun kw => EventValue.containsStr kw v)), cache)
  | .Field groups => Selection.evalGroups e groups cache

/-- `Detection` (detection.rs lines 20-28); the selection `HashMap` is an
association list, its `keys()` iteration the list order. -/
structure Detection where
  selections : List (Str × Selection)
  condition : Str
  ast : Ast

/-- Association-list lookup for the per-event memo `HashMap<String, bool>`
and the selection map. -/
def assocFind {α : Type} (l : List (Str × α)) (k : Str) : Option α :=
  match l with
  | [] => none
  | (k', v) :: rest => if k' == k then some v else assocFind rest k

/-- `Detection::evaluate_selection` (detection.rs lines 99-116): the memo
map is consulted first; otherwise the named selection is evaluated and
memoized (`HashMap::insert` modelled by cons, looked up first-hit); an
unknown name is `false`.  Returns the result with the updated memo and
pattern cache. -/
def Detection.evaluate_selection (d : Detection) (name : Str)
    (lookup : List (Str × Bool)) (e : Event) (cache : Cache) :
    Bool × List (Str × Bool) × Cache :=
  match assocFind lookup name with
  | some b => (b, lookup, cache)
  | none =>
    match assocFind d.selections name with
    | some sel =>
      let r := Selection.evaluate sel e cache
      (r.fst, (name, r.fst) :: lookup, r.snd)
    | none => (false, lookup, cache)

/-- The `…map(evaluate_selection).any(|b| b)` of `Detection::eval`: lazy,
so evaluation stops at the first firing name. -/
def Detection.evalAny (d : Detection) (e : Event) :
    List Str → List (Str × Bool) → Cache → Bool × List (Str × Bool) × Cache
  | [], lookup, cache => (false, lookup, cache)
  | n :: rest, lookup, cache =>
    let r := Detection.evaluate_selection d n lookup e cache
    if r.fst then (true, r.snd.fst, r.snd.snd)
    else Detection.evalAny d e rest r.snd.fst r.snd.snd

/-- The `…map(evaluate_selection).all(|b| b)` of `Detection::eval`: lazy,
so evaluation stops at the first non-firing name. -/
def Detection.evalAll (d : Detection) (e : Event) :
    List Str → List (Str × Bool) → Cache → Bool × List (Str × Bool) × Cache
  | [], lookup, cache => (true, lookup, cache)
  | n :: rest, lookup, cache =>
    let r := Detection.evaluate_selection d n lookup e cache
    if r.fst then Detection.evalAll d e rest r.snd.fst r.snd.snd
    else (false, r.snd.fst, r.snd.snd)

/-- `Detection::eval` (detection.rs lines 118-151): quantifier leaves
iterate the selection names, `OneOf`/`AllOf` filtered by the external
`glob_match` (passed in as `gm`, pattern first); `not`/`or`/`and` evaluate
structurally with Rust's short-circuiting `!`/`||`/`&&`.  The per-event
memo and the global pattern cache are threaded. -/
def Detection.eval (d : Detection) (e : Event) (gm : Str → Str → Bool) :
    Ast → List (Str × Bool) → Cache → Bool × List (Str × Bool) × Cache
  | .Selection s, lookup, cache => Detection.evaluate_selection d s lookup e cache
  | .OneOf s, lookup, cache =>
    Detection.evalAny d e
      ((d.selections.map Prod.fst).filter (fun name => gm s name)) lookup cache
  | .OneOfThem, lookup, cache =>
    Detection.evalAny d e (d.selections.map Prod.fst) lookup cache
  | .AllOf s, lookup, cache =>
    Detection.evalAll d e
      ((d.selections.map Prod.fst).filter (fun name => gm s name)) lookup cache
  | .AllOfThem, lookup, cache =>
    Detection.evalAll d e (d.selections.map Prod.fst) lookup cache
  | .Not a, lookup, cache =>
    let r := Detection.eval d e gm a lookup cache
    (!r.fst, r.snd.fst, r.snd.snd)
  | .Or a b, lookup, cache =>
    let r := Detection.eval d e gm a lookup cache
    if r.fst then (true, r.snd.fst, r.snd.snd)
    else Detection.eval d e gm b r.snd.fst r.snd.snd
  | .And a b, lookup, cache =>
    let r := Detection.eval d e gm a lookup cache
    if r.fst then Detection.eval d e gm b r.snd.fst r.snd.snd
    else (false, r.snd.fst, r.snd.snd)

/-- `Ast::selections_recursive` (ast.rs lines 109-119): collect literal
`Selection` leaves (a `HashSet`, modelled as a deduplicating list in
insertion order); quantifier leaves contribute nothing. -/
def Ast.selectionsAcc : Ast → List Str → List Str
  | .Selection s, acc => if acc.contains s then acc else acc ++ [s]
  | .Not a, acc => Ast.selectionsAcc a acc
  | .Or a b, acc => Ast.selectionsAcc b (Ast.selectionsAcc a acc)
  | .And a b, acc => Ast.selectionsAcc b (Ast.selectionsAcc a acc)
  | _, acc => acc

/-- `Ast::selections` (ast.rs lines 103-107). -/
def Ast.selections (a : Ast) : List Str := Ast.selectionsAcc a []

/-- `Detection::new` with `Detection::parse_ast` inlined (detection.rs
lines 64-93): parse the condition, collect the literal selection leaves,
reject the ones missing from the selection map. -/
def Detection.new (selections : List (Str × Selection)) (condition : Str) :
    Except ParserError Detection :=
  match Ast.new condition with
  | .error e => .error e
  | .ok ast =>
    let identifiers := Ast.selections ast
    let missing := identifiers.filter
      (fun i => !(selections.any (fun p => p.fst == i)))
    if !missing.isEmpty then .error (.UndefinedIdentifiers missing)
    else .ok ⟨selections, condition, ast⟩

/-- C5: a glob quantifier whose glob matches none of the detection's
selection names evaluates vacuously -- `AllOf` to true and `OneOf` to
false, leaving memo and cache untouched -- and such quantifier leaves are
not rejected at construction time: a condition parsing to a bare `AllOf`
or `OneOf` leaf always constructs, whatever the selection map, because
`Ast::selections` collects only literal `Selection` leaves. -/
theorem c5_vacuous_quantifiers (d : Detection) (e : Event)
    (gm : Str → Str → Bool) (s : Str) (lookup : List (Str × Bool))
    (cache : Cache)
    (h : ∀ name ∈ d.selections.map Prod.fst, gm s name = false) :
    Detection.eval d e gm (.AllOf s) lookup cache = (true, lookup, cache) ∧
    Detection.eval d e gm (.OneOf s) lookup cache = (false, lookup, cache) ∧
    (∀ (sels : List (Str × Selection)) (cond : Str),
      Ast.new cond = .ok (.AllOf s) →
      Detection.new sels cond = .ok ⟨sels, cond, .AllOf s⟩) ∧
    (∀ (sels : List (Str × Selection)) (cond : Str),
      Ast.new cond = .ok (.OneOf s) →
      Detection.new sels cond = .ok ⟨sels, cond, .OneOf s⟩) := by
  have hfilter : (d.selections.map Prod.fst).filter (fun name => gm s name) = [] := by
    rw [List.filter_eq_nil_iff]
    intro a ha
    simp [h a ha]
  refine ⟨?_, ?_, ?_, ?_⟩
  · rw [Detection.eval, hfilter]
    rfl
  · rw [Detection.eval, hfilter]
    rfl
  · intro sels cond hast
    rw [Detection.new, hast]
    rfl
  · intro sels cond hast
    rw [Detection.new, hast]
    rfl

theorem c5_vacuous_quantifiers_witness :
    Detection.eval
      ⟨[(String.data "selection_1", Selection.Keyword [String.data "x"])],
        String.data "c", Ast.AllOfThem⟩
      ⟨[]⟩ (fun _ _ => false) (.AllOf (String.data "nothing*")) [] [] =
      (true, [], []) ∧
    Detection.eval
      ⟨[(String.data "selection_1", Selection.Keyword [String.data "x"])],
        String.data "c", Ast.AllOfThem⟩
      ⟨[]⟩ (fun _ _ => false) (.OneOf (String.data "nothing*")) [] [] =
      (false, [], []) ∧
    Detection.new
      [(String.data "selection_1", Selection.Keyword [String.data "x"])]
      (String.data "all of nothing*") =
      .ok ⟨[(String.data "selection_1", Selection.Keyword [String.data "x"])],
        String.data "all of nothing*", .AllOf (String.data "nothing*")⟩ := by
  have h := c5_vacuous_quantifiers
    ⟨[(String.data "selection_1", Selection.Keyword [String.data "x"])],
      String.data "c", Ast.AllOfThem⟩
    ⟨[]⟩ (fun _ _ => false) (String.data "nothing*") [] []
    (fun name _ => rfl)
  exact ⟨h.1, h.2.1, h.2.2.1 _ _ rfl⟩

end SigmaRust
